import Mathlib

/-!
Shallow embedding of the `whisper_subtitles` package
(`config.py`, `formatter.py`, `generator.py`).

Python floats are modelled as exact rationals (`ℚ`), Python ints as `Nat`/`Int`,
Python dicts as association lists with first-match lookup (Python keyword-argument
dicts never contain duplicate keys), and the external Whisper engine as an opaque
collaborator whose invocations are recorded as events.
-/

/-- The decimal digit character for `d` (`d < 10`), as produced by Python's
`{n:02d}`-style decimal formatting. -/
def digitChar : Nat → Char
  | 0 => '0' | 1 => '1' | 2 => '2' | 3 => '3' | 4 => '4'
  | 5 => '5' | 6 => '6' | 7 => '7' | 8 => '8' | 9 => '9'
  | _ => '?'

/-- Fuel-indexed decimal rendering of a natural number (most significant digit
first), mirroring Python's decimal `str`/format rendering of a nonnegative int. -/
def natDigitsAux : Nat → Nat → List Char
  | 0, _ => []
  | fuel + 1, n =>
    if n < 10 then [digitChar n]
    else natDigitsAux fuel (n / 10) ++ [digitChar (n % 10)]

/-- Decimal digit list of `n`, e.g. `natDigits 65 = ['6', '5']`. -/
def natDigits (n : Nat) : List Char := natDigitsAux (n + 1) n

/-- Zero-pad a digit list on the left to width `w`, as Python's `{n:0wd}`. -/
def padLeft (w : Nat) (l : List Char) : List Char :=
  List.replicate (w - l.length) '0' ++ l

/-- Returns `true` iff `c` is an ASCII decimal digit (the regex class `\d`). -/
def isDigitCh (c : Char) : Bool := 48 ≤ c.toNat && c.toNat ≤ 57

/-- Numeric value of a digit character. -/
def digitVal (c : Char) : Nat := c.toNat - 48

/-- Parse a digit list back into a natural number. -/
def digitsToNat (l : List Char) : Nat := l.foldl (fun a c => 10 * a + digitVal c) 0

theorem digitVal_digitChar {d : Nat} (hd : d < 10) : digitVal (digitChar d) = d := by
  interval_cases d <;> rfl

theorem isDigitCh_digitChar {d : Nat} (hd : d < 10) : isDigitCh (digitChar d) = true := by
  interval_cases d <;> rfl

theorem natDigitsAux_irrel :
    ∀ f₁ f₂ n, n < f₁ → n < f₂ → natDigitsAux f₁ n = natDigitsAux f₂ n := by
  intro f₁
  induction f₁ with
  | zero => intro f₂ n h₁ _; omega
  | succ f ih =>
    intro f₂ n h₁ h₂
    cases f₂ with
    | zero => omega
    | succ f' =>
      simp only [natDigitsAux]
      by_cases h : n < 10
      · simp [h]
      · simp only [if_neg h]
        rw [ih f' (n / 10) (by omega) (by omega)]

theorem natDigits_lt {n : Nat} (h : n < 10) : natDigits n = [digitChar n] := by
  simp [natDigits, natDigitsAux, h]

theorem natDigits_ge {n : Nat} (h : 10 ≤ n) :
    natDigits n = natDigits (n / 10) ++ [digitChar (n % 10)] := by
  have e1 : natDigits n = natDigitsAux n (n / 10) ++ [digitChar (n % 10)] := by
    show (if n < 10 then [digitChar n] else natDigitsAux n (n / 10) ++ [digitChar (n % 10)]) = _
    rw [if_neg (by omega)]
  rw [e1, natDigitsAux_irrel n (n / 10 + 1) (n / 10) (by omega) (by omega)]
  rfl

theorem natDigits_ne_nil (n : Nat) : natDigits n ≠ [] := by
  by_cases h : n < 10
  · rw [natDigits_lt h]; simp
  · rw [natDigits_ge (by omega)]; simp

theorem natDigits_all_digit (n : Nat) : ∀ c ∈ natDigits n, isDigitCh c = true := by
  induction n using Nat.strong_induction_on with
  | _ n ih =>
    by_cases h : n < 10
    · rw [natDigits_lt h]
      intro c hc
      simp only [List.mem_singleton] at hc
      subst hc
      exact isDigitCh_digitChar h
    · rw [natDigits_ge (by omega)]
      intro c hc
      rcases List.mem_append.1 hc with hc | hc
      · exact ih (n / 10) (by omega) c hc
      · simp only [List.mem_singleton] at hc
        subst hc
        exact isDigitCh_digitChar (Nat.mod_lt _ (by omega))

theorem digitsToNat_append_singleton (l : List Char) (c : Char) :
    digitsToNat (l ++ [c]) = 10 * digitsToNat l + digitVal c := by
  simp [digitsToNat, List.foldl_append]

theorem digitsToNat_natDigits (n : Nat) : digitsToNat (natDigits n) = n := by
  induction n using Nat.strong_induction_on with
  | _ n ih =>
    by_cases h : n < 10
    · rw [natDigits_lt h]
      simp [digitsToNat, digitVal_digitChar h]
    · rw [natDigits_ge (by omega), digitsToNat_append_singleton,
        ih (n / 10) (by omega), digitVal_digitChar (Nat.mod_lt _ (by omega))]
      omega

theorem natDigits_length_le : ∀ k n, 1 ≤ k → n < 10 ^ k → (natDigits n).length ≤ k := by
  intro k
  induction k with
  | zero => intro n hk _; omega
  | succ k ih =>
    intro n _ hn
    by_cases h : n < 10
    · rw [natDigits_lt h]; simp
    · have hk : 1 ≤ k := by
        by_contra hk
        have hk0 : k = 0 := by omega
        subst hk0
        norm_num at hn
        omega
      rw [natDigits_ge (by omega)]
      have hq : n / 10 < 10 ^ k := by
        rw [Nat.div_lt_iff_lt_mul (by omega)]
        calc n < 10 ^ (k + 1) := hn
        _ = 10 ^ k * 10 := by ring
      have := ih (n / 10) hk hq
      simp only [List.length_append, List.length_singleton]
      omega

theorem digitsToNat_replicate_zero_append (k : Nat) (l : List Char) :
    digitsToNat (List.replicate k '0' ++ l) = digitsToNat l := by
  induction k with
  | zero => simp
  | succ k ih =>
    have : List.replicate (k + 1) '0' ++ l = '0' :: (List.replicate k '0' ++ l) := by
      simp [List.replicate_succ]
    rw [this]
    simpa [digitsToNat, digitVal] using ih

theorem digitsToNat_padLeft (w : Nat) (l : List Char) :
    digitsToNat (padLeft w l) = digitsToNat l :=
  digitsToNat_replicate_zero_append _ _

theorem padLeft_all_digit {l : List Char} (hl : ∀ c ∈ l, isDigitCh c = true) (w : Nat) :
    ∀ c ∈ padLeft w l, isDigitCh c = true := by
  intro c hc
  rcases List.mem_append.1 hc with hc | hc
  · rw [List.eq_of_mem_replicate hc]; rfl
  · exact hl c hc

theorem padLeft_length_of_le {w : Nat} {l : List Char} (h : l.length ≤ w) :
    (padLeft w l).length = w := by
  simp only [padLeft, List.length_append, List.length_replicate]
  omega

theorem length_le_padLeft (w : Nat) (l : List Char) : w ≤ (padLeft w l).length := by
  simp only [padLeft, List.length_append, List.length_replicate]
  omega

/-- Python's `%` on exact nonneg reals: `a % b = a - b * (a // b)` with `//` the
floored quotient (`formatter.py` uses `seconds % 3600`, `% 60`, `% 1`). -/
def pymod (a b : ℚ) : ℚ := a - b * (⌊a / b⌋ : ℚ)

/-- Round a rational to the nearest integer, ties to even - the rounding of
IEEE-754 binary64 arithmetic. -/
def roundNearestEven (x : ℚ) : ℤ :=
  if x - ⌊x⌋ < 1/2 then ⌊x⌋
  else if 1/2 < x - ⌊x⌋ then ⌊x⌋ + 1
  else if Even ⌊x⌋ then ⌊x⌋ else ⌊x⌋ + 1

/-- The exponent of the least significant mantissa bit of the binary64 double
nearest to a positive value `q`: 52 below its leading bit, floored at the
subnormal limit `2^-1074`. -/
def ulpExp (q : ℚ) : ℤ := max (Int.log 2 q - 52) (-1074)

/-- Round a nonnegative real value to the nearest IEEE-754 binary64 double (ties
to even): the nearest integer multiple of `2 ^ ulpExp q`.  Negative arguments do
not occur in the formatter's intermediates and map to 0. -/
def fl64 (q : ℚ) : ℚ :=
  if q ≤ 0 then 0 else (roundNearestEven (q / 2 ^ ulpExp q) : ℚ) * 2 ^ ulpExp q

/-- `s` is the exact value of a nonnegative finite binary64 double: a natural
mantissa below `2^53` times a power of two no smaller than the subnormal limit. -/
def FloatRep (s : ℚ) : Prop :=
  ∃ (m : ℕ) (k : ℤ), m < 2 ^ 53 ∧ -1074 ≤ k ∧ s = (m : ℚ) * 2 ^ k

/-- Source function `format_time` (`formatter.py`, lines 8-26): convert seconds to
the SRT timestamp `HH:MM:SS,mmm`, on the exact value `seconds` of the input
double, with IEEE-754 binary64 semantics:
* `seconds % b` (`b` = 3600, 60, 1) is C `fmod`, which is exact on doubles (the
  true remainder of truncated division is always representable), so it is the
  exact `pymod`;
* `seconds // 3600` is CPython float floor division: `fmod(seconds, 3600)` and the
  subtraction `seconds - fmod(seconds, 3600)` are exact (the difference
  `3600 * q` with `q = ⌊seconds / 3600⌋` is a multiple of the unit in the last
  place of `seconds` with a mantissa no larger than that of `seconds`), and the
  final division of the exact multiple `3600 * q` by 3600 rounds the exact
  integer quotient `q` to the nearest double - `fl64 q`; likewise
  `(seconds % 3600) // 60`;
* the product `(seconds % 1) * 1000` rounds to the nearest double, `fl64`;
* `int(x)` truncates, which on these nonnegative values is `Int.toNat ∘ Int.floor`. -/
def format_time (seconds : ℚ) : String :=
  let hours := (⌊fl64 ((⌊seconds / 3600⌋ : ℤ) : ℚ)⌋).toNat
  let minutes := (⌊fl64 ((⌊pymod seconds 3600 / 60⌋ : ℤ) : ℚ)⌋).toNat
  let secs := (⌊pymod seconds 60⌋).toNat
  let millisecs := (⌊fl64 (pymod seconds 1 * 1000)⌋).toNat
  ⟨padLeft 2 (natDigits hours) ++ ':' :: (padLeft 2 (natDigits minutes) ++
    ':' :: (padLeft 2 (natDigits secs) ++ ',' :: padLeft 3 (natDigits millisecs)))⟩

/-- Python `str.strip()` whitespace set (ASCII part). -/
def isPySpace (c : Char) : Bool :=
  c = ' ' || c = '\t' || c = '\n' || c = '\r' || c = '\x0b' || c = '\x0c'

/-- Python `str.strip()`: drop leading and trailing whitespace. -/
def pyStrip (s : String) : String :=
  ⟨(((s.data.dropWhile isPySpace).reverse.dropWhile isPySpace).reverse : List Char)⟩

/-- One Whisper segment: the `start`/`end`/`text` keys read by the formatter,
plus the engine-assigned `id` key that the formatter never reads. -/
structure Segment where
  id : Int
  start : ℚ
  end_ : ℚ
  text : String
deriving DecidableEq

/-- Source function `format_segment` (`formatter.py`, lines 29-44): one numbered SRT block
`f"{index}\n{start_time} --> {end_time}\n{text}\n\n"` with the text stripped. -/
def format_segment (index : Nat) (segment : Segment) : String :=
  ⟨natDigits index ++ '\n' :: ((format_time segment.start).data ++
    ' ' :: '-' :: '-' :: '>' :: ' ' :: ((format_time segment.end_).data ++
    '\n' :: ((pyStrip segment.text).data ++ ['\n', '\n'])))⟩

/-- The accumulating loop of `format_srt`: `for i, segment in enumerate(segments, 1):
srt_content += format_segment(i, segment)`. -/
def format_srt_loop (i : Nat) (acc : String) : List Segment → String
  | [] => acc
  | segment :: rest => format_srt_loop (i + 1) ⟨acc.data ++ (format_segment i segment).data⟩ rest

/-- Source function `format_srt` (`formatter.py`, lines 47-60): concatenate the blocks with
1-based indices in input order. -/
def format_srt (segments : List Segment) : String := format_srt_loop 1 ⟨[]⟩ segments

/-- Specification-side block list: `format_segment i` applied along the list with
consecutive indices starting at `i`. -/
def srtBlocks (i : Nat) : List Segment → List String
  | [] => []
  | segment :: rest => format_segment i segment :: srtBlocks (i + 1) rest

/-- Python `content.split('\n')` on the character list: always nonempty,
keeps empty pieces (`''.split('\n') == ['']`). -/
def splitNl : List Char → List (List Char)
  | [] => [[]]
  | c :: r =>
    if c = '\n' then [] :: splitNl r
    else
      match splitNl r with
      | [] => [[c]]
      | h :: t => (c :: h) :: t

/-- Python `'\n'.join(pieces)` on character lists. -/
def joinNl : List (List Char) → List Char
  | [] => []
  | [l] => l
  | l :: ls => l ++ '\n' :: joinNl ls

/-- The suffix text `f"... ({remaining} more lines)"` of `preview_srt`. -/
def summaryChars (remaining : Nat) : List Char :=
  "... (".data ++ natDigits remaining ++ " more lines)".data

/-- Source function `preview_srt` (`formatter.py`, lines 75-92): return the content unchanged when
it has at most `max_lines` lines, else the first `max_lines` lines joined by
newlines followed by `"\n\n... ({remaining} more lines)"`. -/
def preview_srt (content : String) (max_lines : Nat) : String :=
  let lines := splitNl content.data
  if lines.length ≤ max_lines then content
  else
    let preview_lines := lines.take max_lines
    let remaining := lines.length - max_lines
    ⟨joinNl preview_lines ++ '\n' :: '\n' :: summaryChars remaining⟩

/-- Decides the regex `\d{2,}:\d{2}:\d{2},\d{3}` (anchored at both ends). -/
def matchesSrtPattern (str : String) : Bool :=
  let l := str.data
  let hd := l.takeWhile isDigitCh
  2 ≤ hd.length &&
    match l.dropWhile isDigitCh with
    | ':' :: r1 =>
      (r1.take 2).length = 2 && (r1.take 2).all isDigitCh &&
        (match r1.drop 2 with
         | ':' :: r2 =>
           (r2.take 2).length = 2 && (r2.take 2).all isDigitCh &&
             (match r2.drop 2 with
              | ',' :: r3 => r3.length = 3 && r3.all isDigitCh
              | _ => false)
         | _ => false)
    | _ => false

/-- Re-derive seconds from a `HH:MM:SS,mmm` string as
`hours * 3600 + minutes * 60 + seconds + millis / 1000` (§8 of the spec);
`none` when the string does not match the pattern. -/
def rederiveSeconds (str : String) : Option ℚ :=
  let l := str.data
  let hd := l.takeWhile isDigitCh
  if 2 ≤ hd.length then
    match l.dropWhile isDigitCh with
    | ':' :: r1 =>
      let m := r1.take 2
      if m.length = 2 ∧ m.all isDigitCh then
        match r1.drop 2 with
        | ':' :: r2 =>
          let sec := r2.take 2
          if sec.length = 2 ∧ sec.all isDigitCh then
            match r2.drop 2 with
            | ',' :: ms =>
              if ms.length = 3 ∧ ms.all isDigitCh then
                some ((digitsToNat hd : ℚ) * 3600 + (digitsToNat m : ℚ) * 60 +
                  (digitsToNat sec : ℚ) + (digitsToNat ms : ℚ) / 1000)
              else none
            | _ => none
          else none
        | _ => none
      else none
    | _ => none
  else none

/-- The timestamp string written in terms of the integer second count `n` and the
millisecond count `ms` (proof-side normal form of `format_time`). -/
def timeString (n ms : Nat) : String :=
  ⟨padLeft 2 (natDigits (n / 3600)) ++ ':' :: (padLeft 2 (natDigits (n % 3600 / 60)) ++
    ':' :: (padLeft 2 (natDigits (n % 60)) ++ ',' :: padLeft 3 (natDigits ms)))⟩

theorem take_length_append {α : Type} (l₁ l₂ : List α) : (l₁ ++ l₂).take l₁.length = l₁ := by
  induction l₁ with
  | nil => simp
  | cons a l ih => simp [ih]

theorem drop_length_append {α : Type} (l₁ l₂ : List α) : (l₁ ++ l₂).drop l₁.length = l₂ := by
  induction l₁ with
  | nil => simp
  | cons a l ih => simp [ih]

theorem takeWhile_append_cons {p : Char → Bool} {l₁ : List Char}
    (h : ∀ c ∈ l₁, p c = true) {c : Char} (hc : p c = false) (l₂ : List Char) :
    (l₁ ++ c :: l₂).takeWhile p = l₁ ∧ (l₁ ++ c :: l₂).dropWhile p = c :: l₂ := by
  induction l₁ with
  | nil => simp [List.takeWhile_cons, List.dropWhile_cons, hc]
  | cons a l ih =>
    have ha : p a = true := h a (List.mem_cons_self a l)
    have ih' := ih (fun x hx => h x (List.mem_cons_of_mem a hx))
    simp only [List.cons_append, List.takeWhile_cons, List.dropWhile_cons, ha]
    simp [ih'.1, ih'.2]

theorem toNat_floor_eq (x : ℚ) (hx : 0 ≤ x) : (⌊x⌋).toNat = ⌊x⌋₊ := by
  rw [← Int.natCast_floor_eq_floor hx, Int.toNat_ofNat]

theorem hours_component (s : ℚ) (h : 0 ≤ s) :
    (⌊s / 3600⌋).toNat = ⌊s⌋.toNat / 3600 := by
  rw [toNat_floor_eq _ (by positivity), toNat_floor_eq _ h]
  exact Nat.floor_div_ofNat s 3600

theorem intFloor_div_nat (s : ℚ) (h : 0 ≤ s) (d : ℕ) :
    ⌊s / (d : ℚ)⌋ = ((⌊s⌋.toNat / d : ℕ) : ℤ) := by
  rw [← Int.natCast_floor_eq_floor (a := s / (d : ℚ)) (by positivity),
    Nat.floor_div_nat s d, ← toNat_floor_eq s h]

theorem intFloor_div_60 (s : ℚ) (h : 0 ≤ s) :
    ⌊s / (60 : ℚ)⌋ = ((⌊s⌋.toNat / 60 : ℕ) : ℤ) := by
  have hc : (((60 : ℕ) : ℚ)) = (60 : ℚ) := by norm_num
  rw [← hc]
  exact intFloor_div_nat s h 60

theorem intFloor_div_3600 (s : ℚ) (h : 0 ≤ s) :
    ⌊s / (3600 : ℚ)⌋ = ((⌊s⌋.toNat / 3600 : ℕ) : ℤ) := by
  have hc : (((3600 : ℕ) : ℚ)) = (3600 : ℚ) := by norm_num
  rw [← hc]
  exact intFloor_div_nat s h 3600

theorem minutes_component (s : ℚ) (h : 0 ≤ s) :
    (⌊pymod s 3600 / 60⌋).toNat = ⌊s⌋.toNat % 3600 / 60 := by
  have e : pymod s 3600 / 60 = s / 60 - ((60 * ⌊s / 3600⌋ : ℤ) : ℚ) := by
    unfold pymod
    push_cast
    ring
  rw [e, Int.floor_sub_int, intFloor_div_60 s h, intFloor_div_3600 s h]
  omega

theorem secs_component (s : ℚ) (h : 0 ≤ s) :
    (⌊pymod s 60⌋).toNat = ⌊s⌋.toNat % 60 := by
  have e : pymod s 60 = s - ((60 * ⌊s / 60⌋ : ℤ) : ℚ) := by
    unfold pymod
    push_cast
    ring
  have hfl : ⌊s⌋ = ((⌊s⌋.toNat : ℕ) : ℤ) := (Int.toNat_of_nonneg (Int.floor_nonneg.2 h)).symm
  rw [e, Int.floor_sub_int, intFloor_div_60 s h]
  rw [hfl]
  omega

theorem millis_nonneg_int (s : ℚ) :
    ((⌊(s - (⌊s⌋ : ℚ)) * 1000⌋).toNat : ℤ) = ⌊(s - (⌊s⌋ : ℚ)) * 1000⌋ := by
  have h0 : (0 : ℚ) ≤ (s - (⌊s⌋ : ℚ)) * 1000 := by
    have := Int.fract_nonneg s
    rw [← Int.self_sub_floor s] at this
    nlinarith
  exact Int.toNat_of_nonneg (Int.floor_nonneg.2 h0)

theorem srt_shape {H M S T : List Char}
    (hH : ∀ c ∈ H, isDigitCh c = true) (hHlen : 2 ≤ H.length)
    (hM : ∀ c ∈ M, isDigitCh c = true) (hMlen : M.length = 2)
    (hS : ∀ c ∈ S, isDigitCh c = true) (hSlen : S.length = 2)
    (hT : ∀ c ∈ T, isDigitCh c = true) (hTlen : T.length = 3) :
    matchesSrtPattern ⟨H ++ ':' :: (M ++ ':' :: (S ++ ',' :: T))⟩ = true ∧
    rederiveSeconds ⟨H ++ ':' :: (M ++ ':' :: (S ++ ',' :: T))⟩ =
      some ((digitsToNat H : ℚ) * 3600 + (digitsToNat M : ℚ) * 60 +
        (digitsToNat S : ℚ) + (digitsToNat T : ℚ) / 1000) := by
  have hcolon : isDigitCh ':' = false := rfl
  have htw := takeWhile_append_cons hH hcolon (M ++ ':' :: (S ++ ',' :: T))
  have hMtake : (M ++ ':' :: (S ++ ',' :: T)).take 2 = M := by
    rw [← hMlen]
    exact take_length_append M _
  have hMdrop : (M ++ ':' :: (S ++ ',' :: T)).drop 2 = ':' :: (S ++ ',' :: T) := by
    rw [← hMlen]
    exact drop_length_append M _
  have hStake : (S ++ ',' :: T).take 2 = S := by
    rw [← hSlen]
    exact take_length_append S _
  have hSdrop : (S ++ ',' :: T).drop 2 = ',' :: T := by
    rw [← hSlen]
    exact drop_length_append S _
  constructor
  · simp only [matchesSrtPattern, htw.1, htw.2, hMtake, hMdrop, hStake, hSdrop]
    have hMall : M.all isDigitCh = true := List.all_eq_true.2 hM
    have hSall : S.all isDigitCh = true := List.all_eq_true.2 hS
    have hTall : T.all isDigitCh = true := List.all_eq_true.2 hT
    simp only [hMlen, hSlen, hTlen, hMall, hSall, hTall]
    simp [hHlen]
  · simp only [rederiveSeconds, htw.1, htw.2, hMtake, hMdrop, hStake, hSdrop]
    rw [if_pos hHlen, if_pos ⟨hMlen, List.all_eq_true.2 hM⟩,
      if_pos ⟨hSlen, List.all_eq_true.2 hS⟩, if_pos ⟨hTlen, List.all_eq_true.2 hT⟩]

/-- The four fields of `timeString n ms` satisfy the digit-count side conditions
whenever `ms < 1000`. -/
theorem timeString_spec (n ms : Nat) (hms : ms < 1000) :
    matchesSrtPattern (timeString n ms) = true ∧
    rederiveSeconds (timeString n ms) =
      some (((n / 3600 : ℕ) : ℚ) * 3600 + ((n % 3600 / 60 : ℕ) : ℚ) * 60 +
        ((n % 60 : ℕ) : ℚ) + ((ms : ℕ) : ℚ) / 1000) := by
  have h100 : (10 : ℕ) ^ 2 = 100 := by norm_num
  have h1000 : (10 : ℕ) ^ 3 = 1000 := by norm_num
  have hMlen : (padLeft 2 (natDigits (n % 3600 / 60))).length = 2 :=
    padLeft_length_of_le (by
      apply natDigits_length_le 2 _ (by omega)
      omega)
  have hSlen : (padLeft 2 (natDigits (n % 60))).length = 2 :=
    padLeft_length_of_le (by
      apply natDigits_length_le 2 _ (by omega)
      omega)
  have hTlen : (padLeft 3 (natDigits ms)).length = 3 :=
    padLeft_length_of_le (by
      apply natDigits_length_le 3 _ (by omega)
      omega)
  have hsp := srt_shape (H := padLeft 2 (natDigits (n / 3600)))
    (padLeft_all_digit (natDigits_all_digit _) 2) (length_le_padLeft 2 _)
    (padLeft_all_digit (natDigits_all_digit _) 2) hMlen
    (padLeft_all_digit (natDigits_all_digit _) 2) hSlen
    (padLeft_all_digit (natDigits_all_digit _) 3) hTlen
  rw [digitsToNat_padLeft, digitsToNat_padLeft, digitsToNat_padLeft, digitsToNat_padLeft,
    digitsToNat_natDigits, digitsToNat_natDigits, digitsToNat_natDigits, digitsToNat_natDigits]
    at hsp
  unfold timeString
  exact hsp

theorem floor_mul_1000 (s : ℚ) (h : 0 ≤ s) :
    ⌊s * 1000⌋ = 1000 * (⌊s⌋.toNat : ℤ) + ((⌊(s - (⌊s⌋ : ℚ)) * 1000⌋).toNat : ℤ) := by
  rw [millis_nonneg_int s, Int.toNat_of_nonneg (Int.floor_nonneg.2 h)]
  have e : s * 1000 = (s - (⌊s⌋ : ℚ)) * 1000 + ((1000 * ⌊s⌋ : ℤ) : ℚ) := by
    push_cast
    ring
  rw [e, Int.floor_add_int]
  ring

theorem pymod_nonneg (a : ℚ) {b : ℚ} (hb : 0 < b) : 0 ≤ pymod a b := by
  unfold pymod
  have h1 : b * ((⌊a / b⌋ : ℤ) : ℚ) ≤ (a / b) * b := by
    rw [mul_comm b]
    exact mul_le_mul_of_nonneg_right (Int.floor_le _) hb.le
  rw [div_mul_cancel₀ a (ne_of_gt hb)] at h1
  linarith

theorem pymod_one (s : ℚ) : pymod s 1 = s - (⌊s⌋ : ℚ) := by
  unfold pymod
  rw [div_one]
  ring

theorem roundNearestEven_intCast (n : ℤ) : roundNearestEven ((n : ℤ) : ℚ) = n := by
  unfold roundNearestEven
  rw [Int.floor_intCast]
  norm_num

theorem roundNearestEven_ge_floor (x : ℚ) : ⌊x⌋ ≤ roundNearestEven x := by
  unfold roundNearestEven
  split_ifs <;> omega

theorem roundNearestEven_nonneg {x : ℚ} (h : 0 ≤ x) : 0 ≤ roundNearestEven x :=
  le_trans (Int.floor_nonneg.2 h) (roundNearestEven_ge_floor x)

theorem roundNearestEven_le_add_half (x : ℚ) : ((roundNearestEven x : ℤ) : ℚ) ≤ x + 1/2 := by
  unfold roundNearestEven
  have h1 : ((⌊x⌋ : ℤ) : ℚ) ≤ x := Int.floor_le x
  split_ifs with ha hb hc
  · linarith
  · push_cast
    linarith [not_lt.1 ha]
  · linarith
  · push_cast
    linarith [not_lt.1 ha]

theorem roundNearestEven_eq_of {x : ℚ} (n : ℤ) (h1 : (n : ℚ) - 1/2 < x)
    (h2 : x < (n : ℚ) + 1/2) : roundNearestEven x = n := by
  have hup : ⌊x⌋ ≤ n := by
    have hx : x < ((n + 1 : ℤ) : ℚ) := by push_cast; linarith
    have := Int.floor_lt.2 hx
    omega
  have hlo : n - 1 ≤ ⌊x⌋ := by
    apply Int.le_floor.2
    push_cast
    linarith
  unfold roundNearestEven
  rcases eq_or_lt_of_le hlo with heq | hlt
  · have hfl : ⌊x⌋ = n - 1 := heq.symm
    rw [hfl, if_neg, if_pos]
    · ring
    · push_cast
      linarith
    · push_cast
      linarith
  · have hfl : ⌊x⌋ = n := by omega
    rw [hfl, if_pos]
    linarith

theorem intLog2_eq {q : ℚ} {k : ℤ} (hq : 0 < q) (h1 : (2:ℚ) ^ k ≤ q)
    (h2 : q < (2:ℚ) ^ (k + 1)) : Int.log 2 q = k := by
  have hc : ((2:ℕ):ℚ) = (2:ℚ) := by norm_num
  have hle : k ≤ Int.log 2 q := (Int.zpow_le_iff_le_log (by norm_num) hq).1 (by rw [hc]; exact h1)
  have hlt : Int.log 2 q < k + 1 :=
    (Int.lt_zpow_iff_log_lt (by norm_num) hq).1 (by rw [hc]; exact h2)
  omega

theorem ulpExp_eq {q : ℚ} (k : ℕ) (hk : k ≤ 52) (h1 : (2:ℚ) ^ k ≤ q)
    (h2 : q < (2:ℚ) ^ (k + 1)) : ulpExp q = (k : ℤ) - 52 := by
  have hq : 0 < q := lt_of_lt_of_le (pow_pos (by norm_num) k) h1
  have hlog : Int.log 2 q = (k : ℤ) := by
    apply intLog2_eq hq
    · rw [zpow_natCast]
      exact h1
    · rw [show ((k:ℤ) + 1) = ((k + 1 : ℕ) : ℤ) by push_cast; ring, zpow_natCast]
      exact h2
  unfold ulpExp
  rw [hlog]
  exact max_eq_left (by omega)

theorem zpow_sub_52 (k : ℕ) (hk : k ≤ 52) :
    (2:ℚ) ^ ((k:ℤ) - 52) = ((2:ℚ) ^ (52 - k))⁻¹ := by
  rw [show (k : ℤ) - 52 = -(((52 - k : ℕ)) : ℤ) by omega, zpow_neg, zpow_natCast]

theorem ulpExp_div_eq {q : ℚ} (k : ℕ) (hk : k ≤ 52) (h1 : (2:ℚ) ^ k ≤ q)
    (h2 : q < (2:ℚ) ^ (k + 1)) : q / 2 ^ ulpExp q = q * 2 ^ (52 - k) := by
  rw [ulpExp_eq k hk h1 h2, zpow_sub_52 k hk, div_inv_eq_mul]

theorem fl64_zero : fl64 0 = 0 := by
  unfold fl64
  rw [if_pos le_rfl]

theorem fl64_nonneg (q : ℚ) : 0 ≤ fl64 q := by
  unfold fl64
  split_ifs with h
  · exact le_rfl
  · have hq : 0 < q := not_le.1 h
    have h2e : (0:ℚ) < 2 ^ ulpExp q := zpow_pos (by norm_num) _
    have h0 : (0:ℤ) ≤ roundNearestEven (q / 2 ^ ulpExp q) :=
      roundNearestEven_nonneg (le_of_lt (div_pos hq h2e))
    exact mul_nonneg (by exact_mod_cast h0) h2e.le

theorem fl64_eq_self {q : ℚ} (hq : 0 < q) (ha : ∃ a : ℤ, q / 2 ^ ulpExp q = (a : ℚ)) :
    fl64 q = q := by
  obtain ⟨a, ha⟩ := ha
  unfold fl64
  rw [if_neg (not_le.2 hq), ha, roundNearestEven_intCast, ← ha]
  exact div_mul_cancel₀ q (ne_of_gt (zpow_pos (by norm_num) _))

theorem fl64_eval_self {q : ℚ} (k : ℕ) (a : ℤ) (hk : k ≤ 52) (h1 : (2:ℚ) ^ k ≤ q)
    (h2 : q < (2:ℚ) ^ (k + 1)) (ha : q * 2 ^ (52 - k) = (a : ℚ)) : fl64 q = q := by
  have hq : 0 < q := lt_of_lt_of_le (pow_pos (by norm_num) k) h1
  exact fl64_eq_self hq ⟨a, by rw [ulpExp_div_eq k hk h1 h2]; exact ha⟩

theorem fl64_eval {q : ℚ} (k : ℕ) (n : ℤ) (hk : k ≤ 52) (h1 : (2:ℚ) ^ k ≤ q)
    (h2 : q < (2:ℚ) ^ (k + 1)) (hn1 : (n : ℚ) - 1/2 < q * 2 ^ (52 - k))
    (hn2 : q * 2 ^ (52 - k) < (n : ℚ) + 1/2) :
    fl64 q = (n : ℚ) / 2 ^ (52 - k) := by
  have hq : 0 < q := lt_of_lt_of_le (pow_pos (by norm_num) k) h1
  unfold fl64
  rw [if_neg (not_le.2 hq), ulpExp_div_eq k hk h1 h2, roundNearestEven_eq_of n hn1 hn2,
    ulpExp_eq k hk h1 h2, zpow_sub_52 k hk, div_eq_mul_inv]

theorem fl64_natCast (n : ℕ) (hn : n < 2 ^ 53) : fl64 ((n : ℕ) : ℚ) = n := by
  rcases Nat.eq_zero_or_pos n with h0 | hpos
  · subst h0
    simpa using fl64_zero
  · have hq : (0:ℚ) < ((n : ℕ) : ℚ) := by exact_mod_cast hpos
    apply fl64_eq_self hq
    have hlog : Int.log 2 ((n:ℕ):ℚ) ≤ 52 := by
      by_contra hcon
      push_neg at hcon
      have h53 : (53:ℤ) ≤ Int.log 2 ((n:ℕ):ℚ) := by omega
      have hzw := (Int.zpow_le_iff_le_log (by norm_num) hq).2 h53
      rw [show ((2:ℕ):ℚ) = (2:ℚ) by norm_num, show ((53:ℤ)) = ((53:ℕ):ℤ) by norm_num,
        zpow_natCast] at hzw
      have hcontra : (2 ^ 53 : ℕ) ≤ n := by exact_mod_cast hzw
      omega
    have hee : ulpExp ((n:ℕ):ℚ) ≤ 0 := by
      unfold ulpExp
      exact max_le (by omega) (by norm_num)
    set e := ulpExp ((n:ℕ):ℚ) with he
    refine ⟨(n : ℤ) * 2 ^ (-e).toNat, ?_⟩
    have hE : (((-e).toNat : ℕ) : ℤ) = -e := Int.toNat_of_nonneg (by omega)
    have h2E : ((2:ℚ)) ^ ((-e).toNat : ℕ) = (2:ℚ) ^ (-e : ℤ) := by
      rw [← zpow_natCast (2:ℚ) (-e).toNat, hE]
    push_cast
    rw [h2E, zpow_neg, div_eq_mul_inv]

theorem floor_fl64_bounds {x : ℚ} (h0 : 0 ≤ x) (hsm : x < (2:ℚ) ^ (53:ℕ)) :
    ⌊x⌋ ≤ ⌊fl64 x⌋ ∧ ⌊fl64 x⌋ ≤ ⌊x⌋ + 1 := by
  rcases eq_or_lt_of_le h0 with heq | hpos
  · rw [← heq, fl64_zero]
    constructor <;> simp
  · have hlog : Int.log 2 x ≤ 52 := by
      by_contra hcon
      push_neg at hcon
      have h53 : (53:ℤ) ≤ Int.log 2 x := by omega
      have hzw := (Int.zpow_le_iff_le_log (by norm_num) hpos).2 h53
      rw [show ((2:ℕ):ℚ) = (2:ℚ) by norm_num, show ((53:ℤ)) = ((53:ℕ):ℤ) by norm_num,
        zpow_natCast] at hzw
      linarith
    set e := ulpExp x with he
    have hee : e ≤ 0 := by
      rw [he]
      unfold ulpExp
      exact max_le (by omega) (by norm_num)
    have h2e : (0:ℚ) < 2 ^ e := zpow_pos (by norm_num) e
    have h2e1 : (2:ℚ) ^ e ≤ 1 := zpow_le_one_of_nonpos (by norm_num) hee
    have hflval : fl64 x = ((roundNearestEven (x / 2 ^ e) : ℤ) : ℚ) * 2 ^ e := by
      unfold fl64
      rw [if_neg (not_le.2 hpos), ← he]
    constructor
    · have hE : (((-e).toNat : ℕ) : ℤ) = -e := Int.toNat_of_nonneg (by omega)
      have h2E : ((2:ℚ)) ^ ((-e).toNat : ℕ) = (2:ℚ) ^ (-e : ℤ) := by
        rw [← zpow_natCast (2:ℚ) (-e).toNat, hE]
      set c : ℤ := ⌊x⌋ * 2 ^ (-e).toNat with hc
      have hcx : ((c : ℤ) : ℚ) = (⌊x⌋ : ℚ) * (2:ℚ) ^ (-e : ℤ) := by
        rw [hc]
        push_cast
        rw [h2E]
      have hcle : ((c : ℤ) : ℚ) ≤ x / 2 ^ e := by
        rw [hcx, zpow_neg, div_eq_mul_inv]
        exact mul_le_mul_of_nonneg_right (Int.floor_le x) (by positivity)
      have hcn : c ≤ roundNearestEven (x / 2 ^ e) :=
        le_trans (Int.le_floor.2 hcle) (roundNearestEven_ge_floor _)
      have hfl_ge : ((⌊x⌋ : ℤ) : ℚ) ≤ fl64 x := by
        rw [hflval]
        have hmul : ((c:ℤ):ℚ) * 2 ^ e ≤ ((roundNearestEven (x / 2 ^ e) : ℤ):ℚ) * 2 ^ e :=
          mul_le_mul_of_nonneg_right (by exact_mod_cast hcn) h2e.le
        have hcc : ((c:ℤ):ℚ) * 2 ^ e = ((⌊x⌋ : ℤ) : ℚ) := by
          rw [hcx, zpow_neg, mul_assoc, inv_mul_cancel₀ (ne_of_gt h2e), mul_one]
        linarith
      exact Int.le_floor.2 hfl_ge
    · have hub : fl64 x ≤ x + 1 := by
        rw [hflval]
        have h1 := roundNearestEven_le_add_half (x / 2 ^ e)
        have h2 : ((roundNearestEven (x / 2 ^ e) : ℤ):ℚ) * 2 ^ e ≤ (x / 2 ^ e + 1/2) * 2 ^ e :=
          mul_le_mul_of_nonneg_right h1 h2e.le
        have he2 : (x / 2 ^ e + 1/2) * 2 ^ e = x + 2 ^ e / 2 := by
          rw [add_mul, div_mul_cancel₀ x (ne_of_gt h2e)]
          ring
        rw [he2] at h2
        linarith
      have hlt : fl64 x < ((⌊x⌋ + 2 : ℤ) : ℚ) := by
        push_cast
        have := Int.lt_floor_add_one x
        linarith
      have := Int.floor_lt.2 hlt
      omega

theorem fl64_lt_1000 {q : ℚ} (hq : q ≤ 1000 - 1000 * ((2:ℚ) ^ (53:ℕ))⁻¹) :
    fl64 q < 1000 := by
  unfold fl64
  split_ifs with h
  · norm_num
  · have hpos : 0 < q := not_le.1 h
    have hlog : Int.log 2 q ≤ 9 := by
      by_contra hcon
      push_neg at hcon
      have h10 : (10:ℤ) ≤ Int.log 2 q := by omega
      have hzw := (Int.zpow_le_iff_le_log (by norm_num) hpos).2 h10
      rw [show ((2:ℕ):ℚ) = (2:ℚ) by norm_num, show ((10:ℤ)) = ((10:ℕ):ℤ) by norm_num,
        zpow_natCast] at hzw
      have hp : (0:ℚ) < ((2:ℚ) ^ (53:ℕ))⁻¹ := by positivity
      norm_num at hzw
      linarith
    have hee0 : ulpExp q ≤ -43 := by
      unfold ulpExp
      exact max_le (by omega) (by norm_num)
    set e := ulpExp q with he
    clear_value e
    have hee : e ≤ -43 := hee0
    have h2e : (0:ℚ) < 2 ^ e := zpow_pos (by norm_num) e
    have hval : ((roundNearestEven (q / 2 ^ e) : ℤ) : ℚ) * 2 ^ e ≤ q + 2 ^ e / 2 := by
      have h1 := roundNearestEven_le_add_half (q / 2 ^ e)
      have h2 : ((roundNearestEven (q / 2 ^ e) : ℤ):ℚ) * 2 ^ e ≤ (q / 2 ^ e + 1/2) * 2 ^ e :=
        mul_le_mul_of_nonneg_right h1 h2e.le
      have he2 : (q / 2 ^ e + 1/2) * 2 ^ e = q + 2 ^ e / 2 := by
        rw [add_mul, div_mul_cancel₀ q (ne_of_gt h2e)]
        ring
      rw [he2] at h2
      exact h2
    have hesmall : (2:ℚ) ^ e ≤ (2:ℚ) ^ (-43 : ℤ) := zpow_le_zpow_right₀ (by norm_num) hee
    have hnum : (2:ℚ) ^ (-43 : ℤ) / 2 + (1000 - 1000 * ((2:ℚ) ^ (53:ℕ))⁻¹) < 1000 := by
      rw [show ((-43:ℤ)) = -((43:ℕ):ℤ) by norm_num, zpow_neg, zpow_natCast]
      norm_num
    set v : ℚ := ((roundNearestEven (q / 2 ^ e) : ℤ) : ℚ) * 2 ^ e with hv
    set w : ℚ := (2:ℚ) ^ e with hw
    set u : ℚ := (2:ℚ) ^ (-43 : ℤ) with hu
    clear_value v w u
    linarith

theorem FloatRep.frac_le {s : ℚ} (hrep : FloatRep s) :
    s - (⌊s⌋ : ℚ) ≤ 1 - ((2:ℚ) ^ (53:ℕ))⁻¹ := by
  obtain ⟨m, k, hm, hk, hs⟩ := hrep
  rcases le_or_lt 0 k with hk0 | hk0
  · have hint : s = ((m * 2 ^ k.toNat : ℕ) : ℚ) := by
      rw [hs]
      push_cast
      rw [← zpow_natCast (2:ℚ) k.toNat, Int.toNat_of_nonneg hk0]
    have hp1 : ((2:ℚ) ^ (53:ℕ))⁻¹ ≤ 1 := by norm_num
    rw [hint, Int.floor_natCast, Int.cast_natCast, sub_self]
    linarith
  · set K := (-k).toNat with hK
    have hKk : ((K : ℕ) : ℤ) = -k := Int.toNat_of_nonneg (by omega)
    have h2k : (2:ℚ) ^ k = ((2:ℚ) ^ K)⁻¹ := by
      rw [← zpow_natCast (2:ℚ) K, hKk, zpow_neg, inv_inv]
    have hsK : s = ((m:ℕ) : ℚ) / 2 ^ K := by
      rw [hs, h2k, ← div_eq_mul_inv]
    have h2K : (0:ℚ) < 2 ^ K := by positivity
    have hs2K : s * 2 ^ K = ((m:ℕ) : ℚ) := by
      rw [hsK, div_mul_cancel₀ _ (ne_of_gt h2K)]
    have hf0 : (0:ℚ) ≤ s - ⌊s⌋ := by
      have := Int.floor_le s
      linarith
    have hf1 : s - (⌊s⌋:ℚ) < 1 := by
      have := Int.lt_floor_add_one s
      linarith
    set j : ℤ := (m : ℤ) - ⌊s⌋ * 2 ^ K with hj
    have hjf : ((j : ℤ) : ℚ) = (s - ⌊s⌋) * 2 ^ K := by
      rw [hj]
      push_cast
      rw [← hs2K]
      ring
    have hj0 : 0 ≤ j := by
      have hq : (0:ℚ) ≤ ((j:ℤ):ℚ) := by
        rw [hjf]
        exact mul_nonneg hf0 h2K.le
      exact_mod_cast hq
    have hjK : ((j:ℤ):ℚ) < 2 ^ K := by
      rw [hjf]
      calc (s - (⌊s⌋:ℚ)) * 2 ^ K < 1 * 2 ^ K := by
            exact mul_lt_mul_of_pos_right hf1 h2K
        _ = 2 ^ K := one_mul _
    have hfeq : s - (⌊s⌋:ℚ) = ((j:ℤ):ℚ) / 2 ^ K := by
      rw [hjf, mul_div_cancel_right₀ _ (ne_of_gt h2K)]
    have hs0 : (0:ℚ) ≤ s := by
      rw [hsK]
      positivity
    rcases le_or_lt K 53 with hK53 | hK53
    · have hjle : ((j:ℤ):ℚ) ≤ 2 ^ K - 1 := by
        have hjz : j < ((2 ^ K : ℕ) : ℤ) := by
          have : ((j:ℤ):ℚ) < (((2 ^ K : ℕ) : ℤ) : ℚ) := by
            push_cast
            exact hjK
          exact_mod_cast this
        have hjz2 : j ≤ ((2 ^ K : ℕ) : ℤ) - 1 := by omega
        have : ((j:ℤ):ℚ) ≤ ((((2 ^ K : ℕ) : ℤ) - 1 : ℤ) : ℚ) := by exact_mod_cast hjz2
        push_cast at this
        linarith
      have hKinv : ((2:ℚ) ^ (53:ℕ))⁻¹ ≤ ((2:ℚ) ^ K)⁻¹ := by
        apply inv_le_inv_of_le h2K
        exact pow_le_pow_right (by norm_num) hK53
      calc s - (⌊s⌋:ℚ) = ((j:ℤ):ℚ) / 2 ^ K := hfeq
        _ ≤ ((2:ℚ) ^ K - 1) / 2 ^ K := (div_le_div_right h2K).2 hjle
        _ = 1 - ((2:ℚ) ^ K)⁻¹ := by
            rw [sub_div, div_self (ne_of_gt h2K), one_div]
        _ ≤ 1 - ((2:ℚ) ^ (53:ℕ))⁻¹ := by linarith
    · have hfl0 : (0:ℤ) ≤ ⌊s⌋ := Int.floor_nonneg.2 hs0
      have h2KZ : (0:ℤ) ≤ 2 ^ K := by positivity
      have hjm : j ≤ (m:ℤ) := by
        rw [hj]
        have : (0:ℤ) ≤ ⌊s⌋ * 2 ^ K := mul_nonneg hfl0 h2KZ
        omega
      have hm2 : ((m:ℕ):ℚ) < (2:ℚ) ^ (53:ℕ) := by exact_mod_cast hm
      have hjmq : ((j:ℤ):ℚ) ≤ ((m:ℕ):ℚ) := by exact_mod_cast hjm
      have hfrac : s - (⌊s⌋:ℚ) < (2:ℚ) ^ (53:ℕ) / 2 ^ K := by
        rw [hfeq]
        exact (div_lt_div_right h2K).2 (lt_of_le_of_lt hjmq hm2)
      have hhalf : (2:ℚ) ^ (53:ℕ) / 2 ^ K ≤ 1/2 := by
        rw [div_le_div_iff h2K (by norm_num)]
        calc (2:ℚ) ^ (53:ℕ) * 2 = 2 ^ (54:ℕ) := by ring
          _ ≤ 2 ^ K := pow_le_pow_right (by norm_num) (by omega)
          _ = 1 * 2 ^ K := (one_mul _).symm
      have hinv : ((2:ℚ) ^ (53:ℕ))⁻¹ ≤ 1/2 := by norm_num
      linarith

theorem minutes_component_fl (s : ℚ) (h : 0 ≤ s) :
    (⌊fl64 ((⌊pymod s 3600 / 60⌋ : ℤ) : ℚ)⌋).toNat = ⌊s⌋.toNat % 3600 / 60 := by
  have hmod : (0:ℚ) ≤ pymod s 3600 := pymod_nonneg s (by norm_num)
  have hj0 : 0 ≤ ⌊pymod s 3600 / 60⌋ := Int.floor_nonneg.2 (by positivity)
  have hjv := minutes_component s h
  set j := ⌊pymod s 3600 / 60⌋ with hjdef
  have hcast : ((j : ℤ) : ℚ) = ((j.toNat : ℕ) : ℚ) := by
    exact_mod_cast (Int.toNat_of_nonneg hj0).symm
  have hj53 : j.toNat < 2 ^ 53 := by omega
  rw [hcast, fl64_natCast j.toNat hj53, Int.floor_natCast, Int.toNat_ofNat]
  exact hjv

theorem hours_component_fl (s : ℚ) (h : 0 ≤ s) (hsm : s < (2:ℚ) ^ (53:ℕ)) :
    (⌊fl64 ((⌊s / 3600⌋ : ℤ) : ℚ)⌋).toNat = ⌊s⌋.toNat / 3600 := by
  have hq0 : 0 ≤ ⌊s / 3600⌋ := Int.floor_nonneg.2 (by positivity)
  have hfl53 : ⌊s⌋ < 2 ^ 53 := by
    apply Int.floor_lt.2
    push_cast
    exact hsm
  have hQle : ⌊s / 3600⌋ ≤ ⌊s⌋ := Int.floor_le_floor (div_le_self h (by norm_num))
  set Q := ⌊s / 3600⌋ with hQ
  have hcast : ((Q : ℤ) : ℚ) = ((Q.toNat : ℕ) : ℚ) := by
    exact_mod_cast (Int.toNat_of_nonneg hq0).symm
  have hQ53 : Q.toNat < 2 ^ 53 := by omega
  rw [hcast, fl64_natCast Q.toNat hQ53, Int.floor_natCast, Int.toNat_ofNat]
  exact hours_component s h

theorem millis_fl_lt {s : ℚ} (hrep : FloatRep s) :
    (⌊fl64 (pymod s 1 * 1000)⌋).toNat < 1000 := by
  rw [pymod_one]
  have hf := FloatRep.frac_le hrep
  have hb : (s - (⌊s⌋:ℚ)) * 1000 ≤ 1000 - 1000 * ((2:ℚ) ^ (53:ℕ))⁻¹ := by linarith
  have hlt : fl64 ((s - (⌊s⌋:ℚ)) * 1000) < 1000 := fl64_lt_1000 hb
  have hfl : ⌊fl64 ((s - (⌊s⌋:ℚ)) * 1000)⌋ < 1000 := Int.floor_lt.2 (by exact_mod_cast hlt)
  omega

/-- Lemma: on inputs below `2^53` seconds, `format_time` is `timeString` of the
integer second count and the float-rounded, truncated millisecond count. -/
theorem format_time_eq_small (s : ℚ) (h : 0 ≤ s) (hsm : s < (2:ℚ) ^ (53:ℕ)) :
    format_time s = timeString ⌊s⌋.toNat (⌊fl64 ((s - (⌊s⌋ : ℚ)) * 1000)⌋).toNat := by
  unfold format_time timeString
  rw [hours_component_fl s h hsm, minutes_component_fl s h, secs_component s h, pymod_one]

/-- On nonnegative input, `format_time` written in terms of its four field
values; the minutes and seconds arguments are below 60 and hence exactly
representable, so their `fl64` wrappers drop away. -/
theorem format_time_eq (s : ℚ) (h : 0 ≤ s) :
    format_time s = ⟨padLeft 2 (natDigits (⌊fl64 ((⌊s / 3600⌋ : ℤ) : ℚ)⌋).toNat) ++ ':' ::
      (padLeft 2 (natDigits (⌊s⌋.toNat % 3600 / 60)) ++ ':' ::
      (padLeft 2 (natDigits (⌊s⌋.toNat % 60)) ++ ',' ::
      padLeft 3 (natDigits (⌊fl64 ((s - (⌊s⌋ : ℚ)) * 1000)⌋).toNat)))⟩ := by
  unfold format_time
  rw [minutes_component_fl s h, secs_component s h, pymod_one]

/-- Recombination of the four field values of `timeString` into a single
millisecond count. -/
theorem timeSum_eq (n ms : Nat) :
    ((n / 3600 : ℕ) : ℚ) * 3600 + ((n % 3600 / 60 : ℕ) : ℚ) * 60 +
      ((n % 60 : ℕ) : ℚ) + ((ms : ℕ) : ℚ) / 1000 = ((n * 1000 + ms : ℕ) : ℚ) / 1000 := by
  have hn : n / 3600 * 3600 + n % 3600 / 60 * 60 + n % 60 = n := by omega
  have hq : ((n / 3600 : ℕ) : ℚ) * 3600 + ((n % 3600 / 60 : ℕ) : ℚ) * 60 + ((n % 60 : ℕ) : ℚ)
      = (n : ℚ) := by
    calc ((n / 3600 : ℕ) : ℚ) * 3600 + ((n % 3600 / 60 : ℕ) : ℚ) * 60 + ((n % 60 : ℕ) : ℚ)
        = ((n / 3600 * 3600 + n % 3600 / 60 * 60 + n % 60 : ℕ) : ℚ) := by
          push_cast
          ring
      _ = (n : ℚ) := by rw [hn]
  rw [show ((n * 1000 + ms : ℕ) : ℚ) = (n : ℚ) * 1000 + (ms : ℚ) from by push_cast; ring]
  rw [← hq]
  ring

/-- C2 (corrected): for every nonnegative binary64 seconds value `s`,
`format_time s` matches the pattern `\d{2,}:\d{2}:\d{2},\d{3}`; re-deriving
seconds from the string as `hours*3600 + minutes*60 + seconds + millis/1000`
gives, for `s` below `2^53`, either `s` truncated to millisecond precision
(`⌊s*1000⌋/1000`) or one millisecond above it: the rounding of the float
product `(s % 1) * 1000` can push the millisecond field one above the true
truncation, so the claimed exact truncation does not always hold. -/
theorem format_time_pattern_roundtrip (s : ℚ) (h : 0 ≤ s) (hrep : FloatRep s) :
    matchesSrtPattern (format_time s) = true ∧
    (s < (2:ℚ) ^ (53:ℕ) →
      rederiveSeconds (format_time s) = some (((⌊s * 1000⌋ : ℤ) : ℚ) / 1000) ∨
      rederiveSeconds (format_time s) = some (((⌊s * 1000⌋ + 1 : ℤ) : ℚ) / 1000)) := by
  have h100 : (10 : ℕ) ^ 2 = 100 := by norm_num
  have h1000 : (10 : ℕ) ^ 3 = 1000 := by norm_num
  have hms0 : (⌊fl64 ((s - (⌊s⌋ : ℚ)) * 1000)⌋).toNat < 1000 := by
    have hm := millis_fl_lt hrep
    rwa [pymod_one] at hm
  constructor
  · rw [format_time_eq s h]
    refine (srt_shape (H := padLeft 2 (natDigits (⌊fl64 ((⌊s / 3600⌋ : ℤ) : ℚ)⌋).toNat))
      (padLeft_all_digit (natDigits_all_digit _) 2) (length_le_padLeft 2 _)
      (padLeft_all_digit (natDigits_all_digit _) 2) ?_
      (padLeft_all_digit (natDigits_all_digit _) 2) ?_
      (padLeft_all_digit (natDigits_all_digit _) 3) ?_).1
    · exact padLeft_length_of_le (by
        apply natDigits_length_le 2 _ (by omega)
        omega)
    · exact padLeft_length_of_le (by
        apply natDigits_length_le 2 _ (by omega)
        omega)
    · exact padLeft_length_of_le (by
        apply natDigits_length_le 3 _ (by omega)
        omega)
  · intro hsm
    rw [format_time_eq_small s h hsm,
      (timeString_spec ⌊s⌋.toNat (⌊fl64 ((s - (⌊s⌋ : ℚ)) * 1000)⌋).toNat hms0).2,
      timeSum_eq]
    have hx0 : (0:ℚ) ≤ (s - (⌊s⌋ : ℚ)) * 1000 :=
      mul_nonneg (by linarith [Int.floor_le s]) (by norm_num)
    have hxlt : (s - (⌊s⌋ : ℚ)) * 1000 < 1000 := by
      have h1 := Int.lt_floor_add_one s
      linarith
    have hxsm : (s - (⌊s⌋ : ℚ)) * 1000 < (2:ℚ) ^ (53:ℕ) := lt_trans hxlt (by norm_num)
    obtain ⟨hlo, hhi⟩ := floor_fl64_bounds hx0 hxsm
    have hfm := floor_mul_1000 s h
    have hxfl0 : 0 ≤ ⌊(s - (⌊s⌋ : ℚ)) * 1000⌋ := Int.floor_nonneg.2 hx0
    set F := ⌊fl64 ((s - (⌊s⌋ : ℚ)) * 1000)⌋ with hF
    set G := ⌊(s - (⌊s⌋ : ℚ)) * 1000⌋ with hG
    rcases (by omega : F = G ∨ F = G + 1) with hc | hc
    · left
      have hz : ((⌊s⌋.toNat * 1000 + F.toNat : ℕ) : ℤ) = ⌊s * 1000⌋ := by
        push_cast
        omega
      have hq : ((⌊s⌋.toNat * 1000 + F.toNat : ℕ) : ℚ) = ((⌊s * 1000⌋ : ℤ) : ℚ) := by
        exact_mod_cast hz
      rw [hq]
    · right
      have hz : ((⌊s⌋.toNat * 1000 + F.toNat : ℕ) : ℤ) = ⌊s * 1000⌋ + 1 := by
        push_cast
        omega
      have hq : ((⌊s⌋.toNat * 1000 + F.toNat : ℕ) : ℚ) = ((⌊s * 1000⌋ + 1 : ℤ) : ℚ) := by
        exact_mod_cast hz
      rw [hq]

/-- C2 witness: the amended property applied at the concrete double `0`. -/
theorem format_time_pattern_roundtrip_witness :
    (0:ℚ) ≤ 0 ∧ FloatRep 0 ∧
      (matchesSrtPattern (format_time 0) = true ∧
        ((0:ℚ) < (2:ℚ) ^ (53:ℕ) →
          rederiveSeconds (format_time 0) = some (((⌊(0:ℚ) * 1000⌋ : ℤ) : ℚ) / 1000) ∨
          rederiveSeconds (format_time 0) = some (((⌊(0:ℚ) * 1000⌋ + 1 : ℤ) : ℚ) / 1000))) := by
  have hrep : FloatRep (0:ℚ) := ⟨0, 0, by norm_num, by norm_num, by norm_num⟩
  exact ⟨le_rfl, hrep, format_time_pattern_roundtrip 0 le_rfl hrep⟩

/-- The float product `0.12299999999999999822... * 1000` rounds up to exactly
`123`. -/
theorem fl64_s0frac : fl64 (69242844270821375 / 2 ^ 49 : ℚ) = 123 := by
  have h := fl64_eval (q := (69242844270821375 / 2 ^ 49 : ℚ)) 6 8655355533852672
    (by norm_num) (by norm_num) (by norm_num) (by norm_num) (by norm_num)
  rw [h]
  norm_num

/-- The double `1 + 553942754166571 * 2⁻⁵²` formats with millisecond field
`123`. -/
theorem format_time_s0_eq :
    format_time (5057542381537067 / 2 ^ 52 : ℚ) = timeString 1 123 := by
  rw [format_time_eq_small _ (by positivity) (by norm_num)]
  have hfl : ⌊(5057542381537067 / 2 ^ 52 : ℚ)⌋ = 1 := by
    rw [Int.floor_eq_iff]
    constructor <;> norm_num
  rw [hfl]
  have he : ((5057542381537067 / 2 ^ 52 : ℚ) - ((1 : ℤ) : ℚ)) * 1000 =
      69242844270821375 / 2 ^ 49 := by
    push_cast
    norm_num
  rw [he, fl64_s0frac]
  have hfl2 : ⌊(123 : ℚ)⌋ = 123 := by
    rw [Int.floor_eq_iff]
    constructor <;> norm_num
  rw [hfl2]
  rfl

/-- C2 counterexample: on the double `s = 1 + 553942754166571 * 2⁻⁵²` the float
product `(s % 1) * 1000` rounds up to exactly `123`, so the formatted string
reads back as `1123/1000` although `⌊s * 1000⌋ = 1122`: the re-derived value is
not `s` truncated to millisecond precision. -/
theorem format_time_roundtrip_counterexample :
    (0:ℚ) ≤ 5057542381537067 / 2 ^ 52 ∧
    FloatRep (5057542381537067 / 2 ^ 52 : ℚ) ∧
    ⌊(5057542381537067 / 2 ^ 52 : ℚ) * 1000⌋ = 1122 ∧
    rederiveSeconds (format_time (5057542381537067 / 2 ^ 52 : ℚ)) = some (1123 / 1000) ∧
    rederiveSeconds (format_time (5057542381537067 / 2 ^ 52 : ℚ)) ≠
      some (((⌊(5057542381537067 / 2 ^ 52 : ℚ) * 1000⌋ : ℤ) : ℚ) / 1000) := by
  have hflm : ⌊(5057542381537067 / 2 ^ 52 : ℚ) * 1000⌋ = 1122 := by
    rw [Int.floor_eq_iff]
    constructor <;> norm_num
  have hred : rederiveSeconds (format_time (5057542381537067 / 2 ^ 52 : ℚ)) =
      some (1123 / 1000) := by
    rw [format_time_s0_eq, (timeString_spec 1 123 (by norm_num)).2]
    norm_num
  refine ⟨by positivity, ⟨5057542381537067, -52, by norm_num, by norm_num, ?_⟩, hflm, hred, ?_⟩
  · rw [show ((-52 : ℤ)) = -((52 : ℕ) : ℤ) from by norm_num, zpow_neg, zpow_natCast]
    norm_num
  · rw [hred, hflm]
    intro hcon
    rw [Option.some.injEq] at hcon
    norm_num at hcon

/-- `format_time` at the exact input `0`. -/
theorem format_time_zero : format_time (0:ℚ) = timeString 0 0 := by
  rw [format_time_eq_small 0 le_rfl (by norm_num), Int.floor_zero]
  have he : ((0:ℚ) - ((0 : ℤ) : ℚ)) * 1000 = 0 := by
    push_cast
    ring
  rw [he, fl64_zero, Int.floor_zero]
  rfl

/-- The literal `65.5` is exactly representable in binary64. -/
theorem fl64_65_5 : fl64 (65.5 : ℚ) = 65.5 :=
  fl64_eval_self 6 (131 * 2 ^ 45) (by norm_num) (by norm_num) (by norm_num)
    (by push_cast; norm_num)

/-- The value `500` is exactly representable in binary64. -/
theorem fl64_500 : fl64 (500 : ℚ) = 500 :=
  fl64_eval_self 8 (500 * 2 ^ 44) (by norm_num) (by norm_num) (by norm_num)
    (by push_cast; norm_num)

/-- `format_time` at the exact input `65.5`. -/
theorem format_time_65_5 : format_time (65.5 : ℚ) = timeString 65 500 := by
  rw [format_time_eq_small _ (by norm_num) (by norm_num)]
  have hfl : ⌊(65.5 : ℚ)⌋ = 65 := by
    rw [Int.floor_eq_iff]
    constructor <;> norm_num
  rw [hfl]
  have he : ((65.5 : ℚ) - ((65 : ℤ) : ℚ)) * 1000 = 500 := by
    push_cast
    norm_num
  rw [he, fl64_500]
  have hfl2 : ⌊(500 : ℚ)⌋ = 500 := by
    rw [Int.floor_eq_iff]
    constructor <;> norm_num
  rw [hfl2]
  rfl

/-- The double nearest to the literal `3661.999`. -/
theorem fl64_3661_999 : fl64 (3661.999 : ℚ) = 8052820962808168 / 2 ^ 41 := by
  have h := fl64_eval (q := (3661.999 : ℚ)) 11 8052820962808168
    (by norm_num) (by norm_num) (by norm_num) (by norm_num) (by norm_num)
  rw [h]
  norm_num

/-- `format_time` on the double nearest to `3661.999`: the fractional part
times `1000` is exactly `34325378629625 / 2^35 = 998.999…`, which truncates
to `998`. -/
theorem format_time_d999 :
    format_time (8052820962808168 / 2 ^ 41 : ℚ) = timeString 3661 998 := by
  rw [format_time_eq_small _ (by positivity) (by norm_num)]
  have hfl : ⌊(8052820962808168 / 2 ^ 41 : ℚ)⌋ = 3661 := by
    rw [Int.floor_eq_iff]
    constructor <;> norm_num
  rw [hfl]
  have he : ((8052820962808168 / 2 ^ 41 : ℚ) - ((3661 : ℤ) : ℚ)) * 1000 =
      34325378629625 / 2 ^ 35 := by
    push_cast
    norm_num
  have hself : fl64 (34325378629625 / 2 ^ 35 : ℚ) = 34325378629625 / 2 ^ 35 :=
    fl64_eval_self 9 8787296929184000 (by norm_num) (by norm_num) (by norm_num)
      (by push_cast; norm_num)
  rw [he, hself]
  have hfl2 : ⌊(34325378629625 / 2 ^ 35 : ℚ)⌋ = 998 := by
    rw [Int.floor_eq_iff]
    constructor <;> norm_num
  rw [hfl2]
  rfl

/-- The double nearest to the literal `3661.9999`. -/
theorem fl64_3661_9999 : fl64 (3661.9999 : ℚ) = 8052822941929098 / 2 ^ 41 := by
  have h := fl64_eval (q := (3661.9999 : ℚ)) 11 8052822941929098
    (by norm_num) (by norm_num) (by norm_num) (by norm_num) (by norm_num)
  rw [h]
  norm_num

/-- `format_time` on the double nearest to `3661.9999`: the fractional part
times `1000` stays below `1000` and truncates to `999`. -/
theorem format_time_d9999 :
    format_time (8052822941929098 / 2 ^ 41 : ℚ) = timeString 3661 999 := by
  rw [format_time_eq_small _ (by positivity) (by norm_num)]
  have hfl : ⌊(8052822941929098 / 2 ^ 41 : ℚ)⌋ = 3661 := by
    rw [Int.floor_eq_iff]
    constructor <;> norm_num
  rw [hfl]
  have he : ((8052822941929098 / 2 ^ 41 : ℚ) - ((3661 : ℤ) : ℚ)) * 1000 =
      137425209576625 / 2 ^ 37 := by
    push_cast
    norm_num
  have hself : fl64 (137425209576625 / 2 ^ 37 : ℚ) = 137425209576625 / 2 ^ 37 :=
    fl64_eval_self 9 8795213412904000 (by norm_num) (by norm_num) (by norm_num)
      (by push_cast; norm_num)
  rw [he, hself]
  have hfl2 : ⌊(137425209576625 / 2 ^ 37 : ℚ)⌋ = 999 := by
    rw [Int.floor_eq_iff]
    constructor <;> norm_num
  rw [hfl2]
  rfl

/-- C3 (corrected): `format_time` on the doubles denoted by the source literals
`0`, `65.5`, `3661.999`, `3661.9999` (each mapped to its exact binary64 value
by `fl64`): the first two give the claimed strings, but `3661.999` gives
`"01:01:01,998"`, not the claimed `"01:01:01,999"` - the nearest double lies
slightly below the literal and the float product `(s % 1) * 1000` lands just
under `999`, which truncation takes to `998`; `3661.9999` does give
`"01:01:01,999"`. -/
theorem format_time_concrete_values :
    format_time (fl64 0) = "00:00:00,000" ∧
    format_time (fl64 65.5) = "00:01:05,500" ∧
    format_time (fl64 3661.999) = "01:01:01,998" ∧
    format_time (fl64 3661.9999) = "01:01:01,999" := by
  refine ⟨?_, ?_, ?_, ?_⟩
  · rw [fl64_zero, format_time_zero]
    decide
  · rw [fl64_65_5, format_time_65_5]
    decide
  · rw [fl64_3661_999, format_time_d999]
    decide
  · rw [fl64_3661_9999, format_time_d9999]
    decide

/-- C3 counterexample: the double denoted by the literal `3661.999` formats to
`"01:01:01,998"`, not the claimed `"01:01:01,999"`. -/
theorem format_time_3661_999_counterexample :
    format_time (fl64 3661.999) = "01:01:01,998" ∧
    format_time (fl64 3661.999) ≠ "01:01:01,999" := by
  have h : format_time (fl64 3661.999) = "01:01:01,998" := by
    rw [fl64_3661_999, format_time_d999]
    decide
  refine ⟨h, ?_⟩
  rw [h]
  decide

/-- The double nearest to the literal `1.2`. -/
theorem fl64_1_2 : fl64 (1.2 : ℚ) = 5404319552844595 / 2 ^ 52 := by
  have h := fl64_eval (q := (1.2 : ℚ)) 0 5404319552844595
    (by norm_num) (by norm_num) (by norm_num) (by norm_num) (by norm_num)
  rw [h]
  norm_num

/-- `format_time` on the double nearest to `1.2`: the fractional part
`0.19999999999999996…` times `1000` rounds to `199.99999999999997…`, which
truncates to `199`. -/
theorem format_time_d12 :
    format_time (5404319552844595 / 2 ^ 52 : ℚ) = timeString 1 199 := by
  rw [format_time_eq_small _ (by positivity) (by norm_num)]
  have hfl : ⌊(5404319552844595 / 2 ^ 52 : ℚ)⌋ = 1 := by
    rw [Int.floor_eq_iff]
    constructor <;> norm_num
  rw [hfl]
  have he : ((5404319552844595 / 2 ^ 52 : ℚ) - ((1 : ℤ) : ℚ)) * 1000 =
      112589990684262375 / 2 ^ 49 := by
    push_cast
    norm_num
  rw [he]
  have h4 := fl64_eval (q := (112589990684262375 / 2 ^ 49 : ℚ)) 7 7036874417766398
    (by norm_num) (by norm_num) (by norm_num) (by norm_num) (by norm_num)
  rw [h4]
  have hfl2 : ⌊((7036874417766398 : ℤ) : ℚ) / 2 ^ (52 - 7)⌋ = 199 := by
    rw [Int.floor_eq_iff]
    constructor <;> norm_num
  rw [hfl2]
  rfl

/-- The single SRT block of the segment `{start: 0, end: 1.2, text: " hi "}`. -/
theorem format_segment_1_2_eval :
    format_segment 1 ⟨0, 0, fl64 1.2, " hi "⟩ =
      "1\n00:00:00,000 --> 00:00:01,199\nhi\n\n" := by
  unfold format_segment
  dsimp only
  rw [format_time_zero, fl64_1_2, format_time_d12]
  decide

/-- C4 (corrected): `format_srt` on the single segment `{start: 0, end: 1.2,
text: " hi "}` (with the exact binary64 value of `1.2` as the end) returns
`"1\n00:00:00,000 --> 00:00:01,199\nhi\n\n"`: index line, timestamp range
line, text stripped of surrounding whitespace and a trailing blank line as
claimed, but the end timestamp reads `01,199`, not the claimed `01,200`,
because the float fractional part `0.19999999999999996` times `1000` gives
`199.99999999999997`, which `int()` truncates to `199`. -/
theorem format_srt_single_segment :
    format_srt [⟨0, 0, fl64 1.2, " hi "⟩] =
      "1\n00:00:00,000 --> 00:00:01,199\nhi\n\n" := by
  show (⟨[] ++ (format_segment 1 ⟨0, 0, fl64 1.2, " hi "⟩).data⟩ : String) = _
  rw [format_segment_1_2_eval]
  rfl

/-- C4 counterexample: the claimed end timestamp `00:00:01,200` is wrong - the
block built from `{start: 0, end: 1.2, text: " hi "}` carries `00:00:01,199`. -/
theorem format_srt_single_segment_cex :
    format_srt [⟨0, 0, fl64 1.2, " hi "⟩] =
      "1\n00:00:00,000 --> 00:00:01,199\nhi\n\n" ∧
    format_srt [⟨0, 0, fl64 1.2, " hi "⟩] ≠
      "1\n00:00:00,000 --> 00:00:01,200\nhi\n\n" := by
  have h : format_srt [⟨0, 0, fl64 1.2, " hi "⟩] =
      "1\n00:00:00,000 --> 00:00:01,199\nhi\n\n" := by
    show (⟨[] ++ (format_segment 1 ⟨0, 0, fl64 1.2, " hi "⟩).data⟩ : String) = _
    rw [format_segment_1_2_eval]
    rfl
  refine ⟨h, ?_⟩
  rw [h]
  decide

/-- Concatenation of a list of strings (in order, no separator). -/
def concatStrings : List String → String
  | [] => ⟨[]⟩
  | s :: rest => ⟨s.data ++ (concatStrings rest).data⟩

theorem format_srt_loop_eq : ∀ (segs : List Segment) (i : Nat) (acc : String),
    format_srt_loop i acc segs = ⟨acc.data ++ (concatStrings (srtBlocks i segs)).data⟩ := by
  intro segs
  induction segs with
  | nil =>
    intro i acc
    show acc = ⟨acc.data ++ []⟩
    rw [List.append_nil]
  | cons seg rest ih =>
    intro i acc
    show format_srt_loop (i + 1) ⟨acc.data ++ (format_segment i seg).data⟩ rest = _
    rw [ih]
    show (⟨(acc.data ++ (format_segment i seg).data) ++
      (concatStrings (srtBlocks (i + 1) rest)).data⟩ : String) = _
    rw [List.append_assoc]
    rfl

theorem format_segment_ignores_id (i : Nat) (seg : Segment) (v : Int) :
    format_segment i { seg with id := v } = format_segment i seg := rfl

theorem srtBlocks_map_id (g : Segment → Int) :
    ∀ (segs : List Segment) (i : Nat),
      srtBlocks i (segs.map fun seg => { seg with id := g seg }) = srtBlocks i segs := by
  intro segs
  induction segs with
  | nil => intro i; rfl
  | cons seg rest ih =>
    intro i
    show format_segment i { seg with id := g seg } :: _ = _
    rw [format_segment_ignores_id, ih]
    rfl

/-- C5: `format_srt` is the concatenation of `format_segment (position + 1)` over the
input order; the empty sequence gives the empty string; and reassigning the
engine-provided `id` field of every segment never changes the output. -/
theorem format_srt_blocks (segs : List Segment) :
    format_srt segs = concatStrings (srtBlocks 1 segs) ∧
    format_srt ([] : List Segment) = "" ∧
    ∀ g : Segment → Int,
      format_srt (segs.map fun seg => { seg with id := g seg }) = format_srt segs := by
  refine ⟨?_, rfl, ?_⟩
  · rw [format_srt, format_srt_loop_eq]
    show (⟨[] ++ (concatStrings (srtBlocks 1 segs)).data⟩ : String) = _
    rw [List.nil_append]
  · intro g
    rw [format_srt, format_srt_loop_eq, format_srt, format_srt_loop_eq, srtBlocks_map_id]

theorem splitNl_ne_nil : ∀ l : List Char, splitNl l ≠ [] := by
  intro l
  induction l with
  | nil => simp [splitNl]
  | cons c r ih =>
    simp only [splitNl]
    by_cases h : c = '\n'
    · simp [h]
    · simp only [if_neg h]
      cases hr : splitNl r with
      | nil => simp
      | cons a t => simp

theorem splitNl_no_newline : ∀ (l : List Char) (x : List Char), x ∈ splitNl l → '\n' ∉ x := by
  intro l
  induction l with
  | nil =>
    intro x hx
    simp only [splitNl, List.mem_singleton] at hx
    subst hx
    simp
  | cons c r ih =>
    intro x hx
    simp only [splitNl] at hx
    by_cases h : c = '\n'
    · rw [if_pos h] at hx
      rcases List.mem_cons.1 hx with hx | hx
      · subst hx; simp
      · exact ih x hx
    · rw [if_neg h] at hx
      cases hr : splitNl r with
      | nil => exact absurd hr (splitNl_ne_nil r)
      | cons a t =>
        rw [hr] at hx
        rcases List.mem_cons.1 hx with hx | hx
        · subst hx
          intro hmem
          rcases List.mem_cons.1 hmem with hmem | hmem
          · exact h hmem.symm
          · exact ih a (hr ▸ List.mem_cons_self a t) hmem
        · exact ih x (hr ▸ List.mem_cons_of_mem a hx)

theorem splitNl_of_no_newline {l : List Char} (h : '\n' ∉ l) : splitNl l = [l] := by
  induction l with
  | nil => rfl
  | cons c r ih =>
    have hc : ¬ c = '\n' := fun hc => h (hc ▸ List.mem_cons_self c r)
    have hr : '\n' ∉ r := fun hr => h (List.mem_cons_of_mem c hr)
    simp only [splitNl, if_neg hc, ih hr]

theorem splitNl_append_newline {l₁ : List Char} (h : '\n' ∉ l₁) (l₂ : List Char) :
    splitNl (l₁ ++ '\n' :: l₂) = l₁ :: splitNl l₂ := by
  induction l₁ with
  | nil => simp [splitNl]
  | cons c r ih =>
    have hc : ¬ c = '\n' := fun hc => h (hc ▸ List.mem_cons_self c r)
    have hr : '\n' ∉ r := fun hmem => h (List.mem_cons_of_mem c hmem)
    simp only [List.cons_append, splitNl, if_neg hc]
    rw [show r.append ('\n' :: l₂) = r ++ '\n' :: l₂ from rfl, ih hr]

theorem joinNl_cons_cons (a b : List Char) (t : List (List Char)) :
    joinNl (a :: b :: t) = a ++ '\n' :: joinNl (b :: t) := rfl

theorem joinNl_append : ∀ (x : List Char) (t : List (List Char)) (ls₂ : List (List Char)),
    ls₂ ≠ [] → joinNl ((x :: t) ++ ls₂) = joinNl (x :: t) ++ '\n' :: joinNl ls₂ := by
  intro x t
  induction t generalizing x with
  | nil =>
    intro ls₂ h₂
    cases ls₂ with
    | nil => exact absurd rfl h₂
    | cons y t₂ => rfl
  | cons y t' ih =>
    intro ls₂ h₂
    calc joinNl ((x :: y :: t') ++ ls₂)
        = x ++ '\n' :: joinNl ((y :: t') ++ ls₂) := rfl
      _ = x ++ '\n' :: (joinNl (y :: t') ++ '\n' :: joinNl ls₂) := by rw [ih y ls₂ h₂]
      _ = (x ++ '\n' :: joinNl (y :: t')) ++ '\n' :: joinNl ls₂ := by simp
      _ = joinNl (x :: y :: t') ++ '\n' :: joinNl ls₂ := rfl

theorem splitNl_joinNl : ∀ (ls : List (List Char)), ls ≠ [] →
    (∀ x ∈ ls, '\n' ∉ x) → splitNl (joinNl ls) = ls := by
  intro ls
  induction ls with
  | nil => intro h; exact absurd rfl h
  | cons x t ih =>
    intro _ hnl
    cases t with
    | nil => exact splitNl_of_no_newline (hnl x (List.mem_cons_self x []))
    | cons y t' =>
      have e : joinNl (x :: y :: t') = x ++ '\n' :: joinNl (y :: t') := rfl
      rw [e, splitNl_append_newline (hnl x (List.mem_cons_self x (y :: t'))),
        ih (by simp) (fun z hz => hnl z (List.mem_cons_of_mem x hz))]

theorem summaryChars_no_newline (remaining : Nat) : '\n' ∉ summaryChars remaining := by
  intro hmem
  rcases List.mem_append.1 hmem with hmem | hmem
  · rcases List.mem_append.1 hmem with hmem | hmem
    · revert hmem; decide
    · have := natDigits_all_digit remaining '\n' hmem
      revert this; decide
  · revert hmem; decide

/-- C6 (amended): if the content has at most `max_lines` lines it is returned
unchanged; otherwise the preview consists of the first `max_lines` lines, ONE
blank line and one summary line stating the omitted count `total - max_lines`,
for a total of `max_lines + 2` lines (for `max_lines ≥ 1`). -/
theorem preview_srt_spec (content : String) (max_lines : Nat) :
    ((splitNl content.data).length ≤ max_lines → preview_srt content max_lines = content) ∧
    (1 ≤ max_lines → max_lines < (splitNl content.data).length →
      splitNl (preview_srt content max_lines).data =
        (splitNl content.data).take max_lines ++
          [[], summaryChars ((splitNl content.data).length - max_lines)] ∧
      (splitNl (preview_srt content max_lines).data).length = max_lines + 2) := by
  constructor
  · intro hle
    unfold preview_srt
    rw [if_pos hle]
  · intro h1 h2
    have hgt : ¬ (splitNl content.data).length ≤ max_lines := by omega
    have hpre : preview_srt content max_lines =
        ⟨joinNl ((splitNl content.data).take max_lines) ++ '\n' :: '\n' ::
          summaryChars ((splitNl content.data).length - max_lines)⟩ := by
      unfold preview_srt
      rw [if_neg hgt]
    set lines := splitNl content.data with hlines
    set r := lines.length - max_lines with hr
    obtain ⟨x, t, hxt⟩ : ∃ x t, lines.take max_lines = x :: t := by
      cases htake : lines.take max_lines with
      | nil =>
        exfalso
        have : (lines.take max_lines).length = min max_lines lines.length :=
          List.length_take _ _
        rw [htake] at this
        simp at this
        omega
      | cons x t => exact ⟨x, t, rfl⟩
    have hjoin : joinNl (lines.take max_lines) ++ '\n' :: '\n' :: summaryChars r =
        joinNl (lines.take max_lines ++ [[], summaryChars r]) := by
      rw [hxt, joinNl_append x t [[], summaryChars r] (by simp)]
      rfl
    have hnl : ∀ z ∈ lines.take max_lines ++ [[], summaryChars r], '\n' ∉ z := by
      intro z hz
      rcases List.mem_append.1 hz with hz | hz
      · exact splitNl_no_newline content.data z (List.take_subset _ _ hz)
      · rcases List.mem_cons.1 hz with hz | hz
        · subst hz; simp
        · rcases List.mem_cons.1 hz with hz | hz
          · subst hz; exact summaryChars_no_newline r
          · simp at hz
    have hsplit : splitNl (preview_srt content max_lines).data =
        lines.take max_lines ++ [[], summaryChars r] := by
      rw [hpre]
      show splitNl (joinNl (lines.take max_lines) ++ '\n' :: '\n' :: summaryChars r) = _
      rw [hjoin]
      exact splitNl_joinNl _ (by rw [hxt]; simp) hnl
    refine ⟨hsplit, ?_⟩
    rw [hsplit, List.length_append, List.length_take]
    have h2len : ([[], summaryChars r] : List (List Char)).length = 2 := rfl
    rw [h2len]
    omega

/-- C6 counterexample: on a 4-line input with `max_lines = 2` the preview contains
ONE blank line before the summary and has 4 = 2 + 2 lines, not the two blank
lines and 2 + 3 = 5 lines the claim asserts. -/
theorem preview_srt_counterexample :
    preview_srt "a\nb\nc\nd" 2 = "a\nb\n\n... (2 more lines)" ∧
    preview_srt "a\nb\nc\nd" 2 ≠ "a\nb\n\n\n... (2 more lines)" ∧
    (splitNl ("a\nb\nc\nd" : String).data).length = 4 ∧
    (splitNl (preview_srt "a\nb\nc\nd" 2).data).length = 4 ∧
    ¬ (splitNl (preview_srt "a\nb\nc\nd" 2).data).length = 2 + 2 + 1 := by
  refine ⟨?_, ?_, ?_, ?_, ?_⟩ <;> decide

/-- C6 witness: both branches of the amended preview property at a concrete input. -/
theorem preview_srt_spec_witness :
    preview_srt "a\nb\nc\nd" 4 = "a\nb\nc\nd" ∧
    (splitNl (preview_srt "a\nb\nc\nd" 2).data =
      (splitNl ("a\nb\nc\nd" : String).data).take 2 ++
        [[], summaryChars ((splitNl ("a\nb\nc\nd" : String).data).length - 2)] ∧
    (splitNl (preview_srt "a\nb\nc\nd" 2).data).length = 2 + 2) :=
  ⟨(preview_srt_spec "a\nb\nc\nd" 4).1 (by decide),
   (preview_srt_spec "a\nb\nc\nd" 2).2 (by decide) (by decide)⟩

/-- Values that appear in Whisper parameter dicts and config attributes:
strings, booleans, numbers (exact rationals), integers, integer lists, and
Python `None`. -/
inductive WVal where
  | s (v : String)
  | b (v : Bool)
  | q (v : ℚ)
  | i (v : Int)
  | ints (v : List Int)
  | none'
deriving DecidableEq

/-- Source dataclass `WhisperConfig` (`config.py`, lines 8-35): the dataclass fields with their
declared defaults. -/
structure WhisperConfig where
  model_size : String := "turbo"
  language : String := "sk"
  task : String := "transcribe"
  word_timestamps : Bool := true
  temperature : ℚ := 0
  best_of : Int := 3
  beam_size : Int := 5
  patience : ℚ := 1
  length_penalty : ℚ := 1
  suppress_tokens : List Int := [-1]
  condition_on_previous_text : Bool := false
  compression_ratio_threshold : ℚ := 2.4
  logprob_threshold : ℚ := -1
  no_speech_threshold : ℚ := 0.6
  initial_prompt : Option String := none
deriving DecidableEq

/-- Source method `WhisperConfig.__post_init__` (`config.py`, lines 37-40): substitute the fixed
Slovak prompt when no prompt was supplied and the language is `"sk"`. -/
def post_init (c : WhisperConfig) : WhisperConfig :=
  if c.initial_prompt = none ∧ c.language = "sk" then
    { c with initial_prompt := some "Slovenský text o teológii a kresťanstve." }
  else c

/-- Dataclass construction: field initialization followed by `__post_init__`. -/
def mkWhisperConfig (c : WhisperConfig) : WhisperConfig := post_init c

/-- Source preset `DEFAULT_CONFIG` (`config.py`, line 63). -/
def DEFAULT_CONFIG : WhisperConfig := mkWhisperConfig {}

/-- Source preset `SLOVAK_CONFIG` (`config.py`, lines 65-69). -/
def SLOVAK_CONFIG : WhisperConfig :=
  mkWhisperConfig { language := "sk", task := "transcribe",
                    initial_prompt := some "Slovenský text o teológii a kresťanstve." }

/-- Source preset `TRANSLATE_TO_ENGLISH_CONFIG` (`config.py`, lines 71-75). -/
def TRANSLATE_TO_ENGLISH_CONFIG : WhisperConfig :=
  mkWhisperConfig { language := "sk", task := "translate", initial_prompt := some "" }

/-- Source preset `ENGLISH_CONFIG` (`config.py`, lines 77-81). -/
def ENGLISH_CONFIG : WhisperConfig :=
  mkWhisperConfig { language := "en", task := "transcribe", initial_prompt := some "" }

/-- Python `x or ""` on an optional string: `None` and `""` are falsy and give
`""`; any other string is returned as is. -/
def pyOrEmpty : Option String → String
  | none => ""
  | some s => if s = "" then "" else s

/-- Source method `WhisperConfig.to_whisper_params` (`config.py`, lines 42-59): the exported
flat parameter dict, in source order, with `initial_prompt` defaulted to `""`. -/
def WhisperConfig.to_whisper_params (c : WhisperConfig) : List (String × WVal) :=
  [("language", WVal.s c.language),
   ("task", WVal.s c.task),
   ("word_timestamps", WVal.b c.word_timestamps),
   ("temperature", WVal.q c.temperature),
   ("best_of", WVal.i c.best_of),
   ("beam_size", WVal.i c.beam_size),
   ("patience", WVal.q c.patience),
   ("length_penalty", WVal.q c.length_penalty),
   ("suppress_tokens", WVal.ints c.suppress_tokens),
   ("initial_prompt", WVal.s (pyOrEmpty c.initial_prompt)),
   ("condition_on_previous_text", WVal.b c.condition_on_previous_text),
   ("compression_ratio_threshold", WVal.q c.compression_ratio_threshold),
   ("logprob_threshold", WVal.q c.logprob_threshold),
   ("no_speech_threshold", WVal.q c.no_speech_threshold)]

/-- Python dict key lookup on an association list (first match; the dicts built
by the source never carry duplicate keys). -/
def pyLookup {α : Type} (k : String) : List (String × α) → Option α
  | [] => none
  | (k', v) :: r => if k' = k then some v else pyLookup k r

/-- Python `{**base, **ov}` (`generator.py`, line 71): keys of `base` in order
with values overridden by `ov` where present, then the `ov`-only keys. -/
def pyDictMerge {α : Type} (base ov : List (String × α)) : List (String × α) :=
  base.map (fun p => (p.1, (pyLookup p.1 ov).getD p.2)) ++
    ov.filter (fun p => (pyLookup p.1 base).isNone)

theorem pyLookup_map_override {α : Type} (base ov : List (String × α)) (k : String) :
    pyLookup k (base.map fun p => (p.1, (pyLookup p.1 ov).getD p.2)) =
      (pyLookup k base).map fun v => (pyLookup k ov).getD v := by
  induction base with
  | nil => rfl
  | cons p r ih =>
    obtain ⟨k', v⟩ := p
    by_cases h : k' = k
    · subst h
      simp [pyLookup]
    · simp only [List.map_cons, pyLookup, if_neg h]
      exact ih

theorem pyLookup_filter_fresh {α : Type} (base ov : List (String × α)) (k : String) :
    pyLookup k (ov.filter fun p => (pyLookup p.1 base).isNone) =
      if (pyLookup k base).isNone then pyLookup k ov else none := by
  induction ov with
  | nil => simp [pyLookup]
  | cons p r ih =>
    obtain ⟨k', v⟩ := p
    by_cases h : k' = k
    · subst h
      cases hb : pyLookup k' base with
      | none => simp [List.filter_cons, pyLookup, hb]
      | some w => simpa [List.filter_cons, pyLookup, hb] using ih
    · cases hb : pyLookup k' base with
      | none => simpa [List.filter_cons, pyLookup, hb, if_neg h] using ih
      | some w => simpa [List.filter_cons, pyLookup, hb, if_neg h] using ih

theorem pyLookup_append {α : Type} (l₁ l₂ : List (String × α)) (k : String) :
    pyLookup k (l₁ ++ l₂) = ((pyLookup k l₁).rec (pyLookup k l₂) fun v => some v) := by
  induction l₁ with
  | nil => rfl
  | cons p r ih =>
    obtain ⟨k', v⟩ := p
    by_cases h : k' = k
    · subst h; simp [pyLookup]
    · simp only [List.cons_append, pyLookup, if_neg h]
      exact ih

theorem pyDictMerge_lookup {α : Type} (base ov : List (String × α)) (k : String) :
    pyLookup k (pyDictMerge base ov) =
      match pyLookup k ov, pyLookup k base with
      | some v, _ => some v
      | none, some v => some v
      | none, none => none := by
  unfold pyDictMerge
  rw [pyLookup_append, pyLookup_map_override, pyLookup_filter_fresh]
  cases hb : pyLookup k base <;> cases ho : pyLookup k ov <;> simp

/-- C7: in `{**config.to_whisper_params(), **overrides}` (`generator.py`, line 71)
an override value wins for every key the export also carries, an unrecognized
override key is preserved with its override value, and a non-overridden exported
key keeps its exported value. -/
theorem merge_override_policy (c : WhisperConfig) (ov : List (String × WVal))
    (_hnd : (ov.map Prod.fst).Nodup) (k : String) :
    ((pyLookup k ov).isSome →
      pyLookup k (pyDictMerge c.to_whisper_params ov) = pyLookup k ov) ∧
    (pyLookup k ov = none →
      pyLookup k (pyDictMerge c.to_whisper_params ov) = pyLookup k c.to_whisper_params) := by
  constructor
  · intro hs
    rw [pyDictMerge_lookup]
    obtain ⟨v, hv⟩ := Option.isSome_iff_exists.1 hs
    rw [hv]
  · intro hn
    rw [pyDictMerge_lookup, hn]
    cases hb : pyLookup k c.to_whisper_params <;> rfl

/-- C7 witness: a shared key takes the override value and an absent key keeps the
exported value, at a concrete configuration and override list. -/
theorem merge_override_policy_witness :
    (pyLookup "language" (pyDictMerge DEFAULT_CONFIG.to_whisper_params
        [("language", WVal.s "en"), ("foo", WVal.s "bar")]) =
      pyLookup "language" [("language", WVal.s "en"), ("foo", WVal.s "bar")]) ∧
    (pyLookup "task" (pyDictMerge DEFAULT_CONFIG.to_whisper_params
        [("language", WVal.s "en"), ("foo", WVal.s "bar")]) =
      pyLookup "task" DEFAULT_CONFIG.to_whisper_params) :=
  ⟨(merge_override_policy DEFAULT_CONFIG
      [("language", WVal.s "en"), ("foo", WVal.s "bar")] (by decide) "language").1 (by decide),
   (merge_override_policy DEFAULT_CONFIG
      [("language", WVal.s "en"), ("foo", WVal.s "bar")] (by decide) "task").2 (by decide)⟩

/-- C8: the exported mapping always binds `"initial_prompt"` to a string value
(never `None`): the empty string is substituted for an absent prompt, including
for configurations whose language is not the distinguished default `"sk"`. -/
theorem initial_prompt_always_string (c : WhisperConfig) :
    pyLookup "initial_prompt" c.to_whisper_params =
      some (WVal.s (pyOrEmpty c.initial_prompt)) ∧
    ∀ lang : String, ¬ lang = "sk" →
      pyLookup "initial_prompt" (mkWhisperConfig { language := lang }).to_whisper_params =
        some (WVal.s "") := by
  constructor
  · rfl
  · intro lang hl
    unfold mkWhisperConfig post_init
    rw [if_neg (fun h => hl h.2)]
    rfl

/-- C8 witness: the exported prompt entry at `ENGLISH_CONFIG` and at a freshly
constructed non-Slovak configuration with no prompt supplied. -/
theorem initial_prompt_always_string_witness :
    (pyLookup "initial_prompt" ENGLISH_CONFIG.to_whisper_params =
      some (WVal.s (pyOrEmpty ENGLISH_CONFIG.initial_prompt))) ∧
    (pyLookup "initial_prompt" (mkWhisperConfig { language := "fr" }).to_whisper_params =
      some (WVal.s "")) :=
  ⟨(initial_prompt_always_string ENGLISH_CONFIG).1,
   (initial_prompt_always_string ENGLISH_CONFIG).2 "fr" (by decide)⟩

/-- Calls into the external Whisper engine, recorded in order: `whisper.load_model`
(model acquisition) and `model.transcribe` (a run with its parameter dict). -/
inductive EngineEvent where
  | load (model_size : String)
  | run (path : String) (params : List (String × WVal))
deriving DecidableEq

/-- Returns `true` exactly on model-acquisition events. -/
def isLoadEvent : EngineEvent → Bool
  | EngineEvent.load _ => true
  | EngineEvent.run _ _ => false

/-- Returns `true` exactly on engine run events. -/
def isRunEvent : EngineEvent → Bool
  | EngineEvent.load _ => false
  | EngineEvent.run _ _ => true

/-- The error raised by `SubtitleGenerator.transcribe` on a missing media file. -/
inductive TranscribeError where
  | fileNotFound (path : String)
deriving DecidableEq

/-- The mutable state of a `SubtitleGenerator` (`generator.py`, lines 26-37):
`model_size`, the held config, and the engine handle `model`, `None` until loaded
(the handle itself is opaque; we model it as an uninformative token). -/
structure GenState where
  model_size : String
  config : WhisperConfig
  model : Option Unit
deriving DecidableEq

/-- Source method `SubtitleGenerator.__init__` with an explicit config. -/
def SubtitleGenerator_init (model_size : String) (config : WhisperConfig) : GenState :=
  { model_size := model_size, config := config, model := none }

/-- Source method `SubtitleGenerator.load_model` (`generator.py`, lines 39-44): call
`whisper.load_model(self.model_size)` and store the handle only when `self.model`
is `None`; returns the engine calls made. -/
def load_model (g : GenState) : GenState × List EngineEvent :=
  match g.model with
  | none => ({ g with model := some () }, [EngineEvent.load g.model_size])
  | some _ => (g, [])

/-- Source method `SubtitleGenerator.transcribe` (`generator.py`, lines 46-83): first
`self.load_model()`, then the existence check on `video_path` (raising
`FileNotFoundError` when it fails), then the config/override merge and the engine
run.  `fs` is the persistent-storage existence predicate and `engine` the opaque
result of `model.transcribe`; the returned list records the engine calls made. -/
def transcribe (fs : String → Bool)
    (engine : String → List (String × WVal) → List Segment)
    (g : GenState) (video_path : String) (kwargs : List (String × WVal)) :
    GenState × List EngineEvent × Except TranscribeError (List Segment) :=
  let r := load_model g
  if fs video_path then
    let params := pyDictMerge r.1.config.to_whisper_params kwargs
    (r.1, r.2 ++ [EngineEvent.run video_path params], Except.ok (engine video_path params))
  else
    (r.1, r.2, Except.error (TranscribeError.fileNotFound video_path))

/-- One public operation on the generator that can touch the engine handle:
an explicit load request or a `transcribe` call. -/
inductive GenOp where
  | loadOp
  | transcribeOp (path : String) (kwargs : List (String × WVal))

/-- Run one operation, returning the new state and the engine calls made. -/
def runOp (fs : String → Bool)
    (engine : String → List (String × WVal) → List Segment)
    (g : GenState) : GenOp → GenState × List EngineEvent
  | GenOp.loadOp => load_model g
  | GenOp.transcribeOp path kwargs =>
    let r := transcribe fs engine g path kwargs
    (r.1, r.2.1)

/-- Run a sequence of operations, accumulating the engine calls in order. -/
def runOps (fs : String → Bool)
    (engine : String → List (String × WVal) → List Segment)
    (g : GenState) : List GenOp → GenState × List EngineEvent
  | [] => (g, [])
  | op :: rest =>
    let r := runOp fs engine g op
    let r' := runOps fs engine r.1 rest
    (r'.1, r.2 ++ r'.2)

theorem load_model_loaded {g : GenState} (h : g.model.isSome) : load_model g = (g, []) := by
  cases hm : g.model with
  | none => rw [hm] at h; simp at h
  | some u => simp [load_model, hm]

theorem load_model_isSome (g : GenState) : (load_model g).1.model.isSome = true := by
  cases hm : g.model <;> simp [load_model, hm]

theorem load_model_fresh {g : GenState} (h : g.model = none) :
    load_model g = ({ g with model := some () }, [EngineEvent.load g.model_size]) := by
  simp [load_model, h]

/-- C1 counterexample: a fresh (Unloaded) generator, a path absent from storage and
no overrides: `transcribe` does raise NotFound, but the engine's model-acquisition
step has already been invoked (one load event), refuting "neither the engine's
model-acquisition (load) step nor its run step is invoked". -/
theorem transcribe_missing_path_counterexample :
    (transcribe (fun _ => false) (fun _ _ => []) (SubtitleGenerator_init "turbo" DEFAULT_CONFIG)
      "missing.mp4" []).2.2 = Except.error (TranscribeError.fileNotFound "missing.mp4") ∧
    (transcribe (fun _ => false) (fun _ _ => []) (SubtitleGenerator_init "turbo" DEFAULT_CONFIG)
      "missing.mp4" []).2.1.countP isLoadEvent = 1 :=
  ⟨rfl, rfl⟩

/-- C1 (amended): on a path that does not exist, `transcribe` returns the NotFound
error and the engine's RUN step is never invoked; but `load_model` runs first, so
from the Unloaded state the model-acquisition step is invoked (exactly one load
event) before the error is raised. -/
theorem transcribe_missing_path (fs : String → Bool)
    (engine : String → List (String × WVal) → List Segment)
    (g : GenState) (path : String) (kwargs : List (String × WVal))
    (h : fs path = false) :
    (transcribe fs engine g path kwargs).2.2 =
      Except.error (TranscribeError.fileNotFound path) ∧
    (transcribe fs engine g path kwargs).2.1.countP isRunEvent = 0 ∧
    (g.model = none →
      (transcribe fs engine g path kwargs).2.1 = [EngineEvent.load g.model_size]) := by
  refine ⟨?_, ?_, ?_⟩
  · simp [transcribe, h]
  · cases hm : g.model with
    | none => simp [transcribe, h, load_model, hm, isLoadEvent, isRunEvent]
    | some u => simp [transcribe, h, load_model, hm]
  · intro hm
    simp [transcribe, h, load_model, hm]

/-- C1 witness: the amended property at a concrete fresh generator and missing path. -/
theorem transcribe_missing_path_witness :
    ((transcribe (fun _ => false) (fun _ _ => []) (SubtitleGenerator_init "turbo" DEFAULT_CONFIG)
      "missing.mp4" []).2.2 = Except.error (TranscribeError.fileNotFound "missing.mp4")) ∧
    ((transcribe (fun _ => false) (fun _ _ => []) (SubtitleGenerator_init "turbo" DEFAULT_CONFIG)
      "missing.mp4" []).2.1.countP isRunEvent = 0) ∧
    ((transcribe (fun _ => false) (fun _ _ => []) (SubtitleGenerator_init "turbo" DEFAULT_CONFIG)
      "missing.mp4" []).2.1 =
      [EngineEvent.load (SubtitleGenerator_init "turbo" DEFAULT_CONFIG).model_size]) :=
  ⟨(transcribe_missing_path (fun _ => false) (fun _ _ => [])
      (SubtitleGenerator_init "turbo" DEFAULT_CONFIG) "missing.mp4" [] rfl).1,
   (transcribe_missing_path (fun _ => false) (fun _ _ => [])
      (SubtitleGenerator_init "turbo" DEFAULT_CONFIG) "missing.mp4" [] rfl).2.1,
   (transcribe_missing_path (fun _ => false) (fun _ _ => [])
      (SubtitleGenerator_init "turbo" DEFAULT_CONFIG) "missing.mp4" [] rfl).2.2 rfl⟩

theorem runOp_loaded (fs : String → Bool)
    (engine : String → List (String × WVal) → List Segment)
    {g : GenState} (h : g.model.isSome = true) (op : GenOp) :
    (runOp fs engine g op).1.model.isSome = true ∧
    (runOp fs engine g op).2.countP isLoadEvent = 0 := by
  cases op with
  | loadOp =>
    show (load_model g).1.model.isSome = true ∧ (load_model g).2.countP isLoadEvent = 0
    rw [load_model_loaded h]
    exact ⟨h, rfl⟩
  | transcribeOp path kwargs =>
    show (transcribe fs engine g path kwargs).1.model.isSome = true ∧
      (transcribe fs engine g path kwargs).2.1.countP isLoadEvent = 0
    unfold transcribe
    rw [load_model_loaded h]
    by_cases hfs : fs path
    · simp [hfs, isLoadEvent, h]
    · simp [hfs, h]

theorem runOp_fresh (fs : String → Bool)
    (engine : String → List (String × WVal) → List Segment)
    {g : GenState} (h : g.model = none) (op : GenOp) :
    (runOp fs engine g op).1.model.isSome = true ∧
    (runOp fs engine g op).2.countP isLoadEvent = 1 := by
  cases op with
  | loadOp =>
    show (load_model g).1.model.isSome = true ∧ (load_model g).2.countP isLoadEvent = 0 + 1
    rw [load_model_fresh h]
    exact ⟨rfl, rfl⟩
  | transcribeOp path kwargs =>
    show (transcribe fs engine g path kwargs).1.model.isSome = true ∧
      (transcribe fs engine g path kwargs).2.1.countP isLoadEvent = 0 + 1
    unfold transcribe
    rw [load_model_fresh h]
    by_cases hfs : fs path
    · simp [hfs, isLoadEvent]
    · simp [hfs, isLoadEvent]

theorem runOps_loaded (fs : String → Bool)
    (engine : String → List (String × WVal) → List Segment) :
    ∀ (ops : List GenOp) {g : GenState}, g.model.isSome = true →
      (runOps fs engine g ops).1.model.isSome = true ∧
      (runOps fs engine g ops).2.countP isLoadEvent = 0 := by
  intro ops
  induction ops with
  | nil => intro g h; exact ⟨h, rfl⟩
  | cons op rest ih =>
    intro g h
    obtain ⟨h1, h2⟩ := runOp_loaded fs engine h op
    obtain ⟨h3, h4⟩ := ih h1
    refine ⟨h3, ?_⟩
    show ((runOp fs engine g op).2 ++ (runOps fs engine (runOp fs engine g op).1 rest).2).countP
      isLoadEvent = 0
    rw [List.countP_append, h2, h4]

/-- C9: from the initial Unloaded state, any nonempty sequence of load requests and
`transcribe` calls invokes the engine's model-acquisition step exactly once and
leaves the handle Loaded; and from any Loaded state every operation keeps the
handle Loaded and never invokes model acquisition again. -/
theorem engine_handle_lifecycle (fs : String → Bool)
    (engine : String → List (String × WVal) → List Segment)
    (model_size : String) (config : WhisperConfig) (ops : List GenOp) (h : ops ≠ []) :
    (runOps fs engine (SubtitleGenerator_init model_size config) ops).2.countP isLoadEvent = 1 ∧
    (runOps fs engine (SubtitleGenerator_init model_size config) ops).1.model.isSome = true ∧
    (∀ g : GenState, g.model.isSome = true → ∀ op : GenOp,
      (runOp fs engine g op).1.model.isSome = true ∧
      (runOp fs engine g op).2.countP isLoadEvent = 0) := by
  have main : (runOps fs engine (SubtitleGenerator_init model_size config) ops).2.countP
      isLoadEvent = 1 ∧
      (runOps fs engine (SubtitleGenerator_init model_size config) ops).1.model.isSome = true := by
    cases ops with
    | nil => exact absurd rfl h
    | cons op rest =>
      obtain ⟨h1, h2⟩ := runOp_fresh fs engine
        (g := SubtitleGenerator_init model_size config) rfl op
      obtain ⟨h3, h4⟩ := runOps_loaded fs engine rest h1
      constructor
      · show ((runOp fs engine _ op).2 ++ _).countP isLoadEvent = 1
        rw [List.countP_append, h2, h4]
      · exact h3
  exact ⟨main.1, main.2, fun g hg op => runOp_loaded fs engine hg op⟩

/-- C9 witness: two consecutive explicit load requests on a fresh generator load
the model exactly once. -/
theorem engine_handle_lifecycle_witness :
    (runOps (fun _ => false) (fun _ _ => []) (SubtitleGenerator_init "turbo" DEFAULT_CONFIG)
      [GenOp.loadOp, GenOp.loadOp]).2.countP isLoadEvent = 1 ∧
    (runOps (fun _ => false) (fun _ _ => []) (SubtitleGenerator_init "turbo" DEFAULT_CONFIG)
      [GenOp.loadOp, GenOp.loadOp]).1.model.isSome = true ∧
    (∀ g : GenState, g.model.isSome = true → ∀ op : GenOp,
      (runOp (fun _ => false) (fun _ _ => []) g op).1.model.isSome = true ∧
      (runOp (fun _ => false) (fun _ _ => []) g op).2.countP isLoadEvent = 0) :=
  engine_handle_lifecycle (fun _ => false) (fun _ _ => []) "turbo" DEFAULT_CONFIG
    [GenOp.loadOp, GenOp.loadOp] (List.cons_ne_nil _ _)

/-- The attribute dictionary of a held `WhisperConfig` instance, as seen by
Python's `hasattr`/`setattr` in `SubtitleGenerator.update_config`. -/
def attrsOf (c : WhisperConfig) : List (String × WVal) :=
  [("model_size", WVal.s c.model_size),
   ("language", WVal.s c.language),
   ("task", WVal.s c.task),
   ("word_timestamps", WVal.b c.word_timestamps),
   ("temperature", WVal.q c.temperature),
   ("best_of", WVal.i c.best_of),
   ("beam_size", WVal.i c.beam_size),
   ("patience", WVal.q c.patience),
   ("length_penalty", WVal.q c.length_penalty),
   ("suppress_tokens", WVal.ints c.suppress_tokens),
   ("condition_on_previous_text", WVal.b c.condition_on_previous_text),
   ("compression_ratio_threshold", WVal.q c.compression_ratio_threshold),
   ("logprob_threshold", WVal.q c.logprob_threshold),
   ("no_speech_threshold", WVal.q c.no_speech_threshold),
   ("initial_prompt", (c.initial_prompt).rec WVal.none' fun s => WVal.s s)]

/-- Python `hasattr(config, key)` over the attribute dictionary. -/
def hasattr (attrs : List (String × WVal)) (k : String) : Bool := (pyLookup k attrs).isSome

/-- Python `setattr(config, key, value)` over the attribute dictionary: replace the
value at an existing key, leave everything else in place. -/
def setattr (attrs : List (String × WVal)) (k : String) (v : WVal) : List (String × WVal) :=
  attrs.map fun p => if p.1 = k then (p.1, v) else p

/-- Source method `SubtitleGenerator.update_config` (`generator.py`, lines 158-167):
`for key, value in kwargs.items(): if hasattr(self.config, key):
setattr(self.config, key, value)`. -/
def update_config (attrs : List (String × WVal)) (kwargs : List (String × WVal)) :
    List (String × WVal) :=
  kwargs.foldl (fun a kv => if hasattr a kv.1 then setattr a kv.1 kv.2 else a) attrs

theorem pyLookup_setattr_self (attrs : List (String × WVal)) (k : String) (v : WVal) :
    pyLookup k (setattr attrs k v) = (pyLookup k attrs).map fun _ => v := by
  induction attrs with
  | nil => rfl
  | cons p r ih =>
    obtain ⟨k', w⟩ := p
    by_cases h : k' = k
    · have e : setattr ((k', w) :: r) k v = (k', v) :: setattr r k v := by
        show (if k' = k then (k', v) else (k', w)) :: _ = _
        rw [if_pos h]
        rfl
      rw [e]
      show (if k' = k then some v else pyLookup k (setattr r k v)) = _
      rw [if_pos h]
      show _ = Option.map _ (if k' = k then some w else pyLookup k r)
      rw [if_pos h]
      rfl
    · have e : setattr ((k', w) :: r) k v = (k', w) :: setattr r k v := by
        show (if k' = k then (k', v) else (k', w)) :: _ = _
        rw [if_neg h]
        rfl
      rw [e]
      show (if k' = k then some w else pyLookup k (setattr r k v)) = _
      rw [if_neg h]
      show _ = Option.map _ (if k' = k then some w else pyLookup k r)
      rw [if_neg h]
      exact ih

theorem pyLookup_setattr_ne (attrs : List (String × WVal)) {k k' : String} (h : ¬ k' = k)
    (v : WVal) : pyLookup k' (setattr attrs k v) = pyLookup k' attrs := by
  induction attrs with
  | nil => rfl
  | cons p r ih =>
    obtain ⟨k₀, w⟩ := p
    by_cases h₀ : k₀ = k
    · have e : setattr ((k₀, w) :: r) k v = (k₀, v) :: setattr r k v := by
        show (if k₀ = k then (k₀, v) else (k₀, w)) :: _ = _
        rw [if_pos h₀]
        rfl
      have hne : ¬ k₀ = k' := fun hh => h (h₀ ▸ hh.symm)
      rw [e]
      show (if k₀ = k' then some v else pyLookup k' (setattr r k v)) = _
      rw [if_neg hne]
      show _ = (if k₀ = k' then some w else pyLookup k' r)
      rw [if_neg hne]
      exact ih
    · have e : setattr ((k₀, w) :: r) k v = (k₀, w) :: setattr r k v := by
        show (if k₀ = k then (k₀, v) else (k₀, w)) :: _ = _
        rw [if_neg h₀]
        rfl
      rw [e]
      show (if k₀ = k' then some w else pyLookup k' (setattr r k v)) = _
      by_cases h₁ : k₀ = k'
      · rw [if_pos h₁]
        show _ = (if k₀ = k' then some w else pyLookup k' r)
        rw [if_pos h₁]
      · rw [if_neg h₁]
        show _ = (if k₀ = k' then some w else pyLookup k' r)
        rw [if_neg h₁]
        exact ih

theorem setattr_keys (attrs : List (String × WVal)) (k : String) (v : WVal) :
    (setattr attrs k v).map Prod.fst = attrs.map Prod.fst := by
  induction attrs with
  | nil => rfl
  | cons p r ih =>
    obtain ⟨k₀, w⟩ := p
    by_cases h : k₀ = k
    · show ((if k₀ = k then (k₀, v) else (k₀, w)) :: setattr r k v).map Prod.fst = _
      rw [if_pos h, List.map_cons, List.map_cons, ih]
    · show ((if k₀ = k then (k₀, v) else (k₀, w)) :: setattr r k v).map Prod.fst = _
      rw [if_neg h, List.map_cons, List.map_cons, ih]

theorem pyLookup_eq_none_of_not_mem {k : String} :
    ∀ {l : List (String × WVal)}, k ∉ l.map Prod.fst → pyLookup k l = none := by
  intro l
  induction l with
  | nil => intro _; rfl
  | cons p r ih =>
    intro h
    obtain ⟨k₀, w⟩ := p
    simp only [List.map_cons, List.mem_cons] at h
    push_neg at h
    show (if k₀ = k then some w else pyLookup k r) = none
    rw [if_neg (fun hh => h.1 hh.symm)]
    exact ih h.2

theorem update_config_keys : ∀ (kwargs attrs : List (String × WVal)),
    (update_config attrs kwargs).map Prod.fst = attrs.map Prod.fst := by
  intro kwargs
  induction kwargs with
  | nil => intro attrs; rfl
  | cons kv rest ih =>
    intro attrs
    show (update_config (if hasattr attrs kv.1 then setattr attrs kv.1 kv.2 else attrs)
      rest).map Prod.fst = _
    by_cases h : hasattr attrs kv.1 = true
    · rw [if_pos h, ih, setattr_keys]
    · rw [if_neg h, ih]

theorem update_config_lookup : ∀ (kwargs attrs : List (String × WVal)),
    (kwargs.map Prod.fst).Nodup → ∀ k,
    pyLookup k (update_config attrs kwargs) =
      match pyLookup k attrs, pyLookup k kwargs with
      | none, _ => none
      | some old, none => some old
      | some _, some v => some v := by
  intro kwargs
  induction kwargs with
  | nil =>
    intro attrs _ k
    show pyLookup k attrs = _
    cases h : pyLookup k attrs <;> rfl
  | cons kv rest ih =>
    intro attrs hnd k
    obtain ⟨k₀, v₀⟩ := kv
    simp only [List.map_cons, List.nodup_cons] at hnd
    have hstep : update_config attrs ((k₀, v₀) :: rest) =
        update_config (if hasattr attrs k₀ then setattr attrs k₀ v₀ else attrs) rest := rfl
    rw [hstep]
    by_cases hk : k₀ = k
    · subst hk
      have hrest : pyLookup k₀ rest = none := pyLookup_eq_none_of_not_mem hnd.1
      by_cases hh : hasattr attrs k₀ = true
      · rw [if_pos hh, ih _ hnd.2 k₀, pyLookup_setattr_self, hrest]
        obtain ⟨w, hw⟩ := Option.isSome_iff_exists.1 hh
        rw [hw]
        show some v₀ = _
        show _ = (match some w, if k₀ = k₀ then some v₀ else pyLookup k₀ rest with
          | none, _ => none
          | some old, none => some old
          | some _, some v => some v)
        rw [if_pos rfl]
      · rw [if_neg hh, ih _ hnd.2 k₀, hrest]
        have hnone : pyLookup k₀ attrs = none := by
          cases hl : pyLookup k₀ attrs with
          | none => rfl
          | some w => exact absurd (by rw [hasattr, hl]; rfl) hh
        rw [hnone]
    · have hcons : pyLookup k ((k₀, v₀) :: rest) = pyLookup k rest := by
        show (if k₀ = k then some v₀ else pyLookup k rest) = pyLookup k rest
        rw [if_neg hk]
      by_cases hh : hasattr attrs k₀ = true
      · rw [if_pos hh, ih _ hnd.2 k, pyLookup_setattr_ne attrs (fun h => hk h.symm), hcons]
      · rw [if_neg hh, ih _ hnd.2 k, hcons]

theorem update_config_no_known : ∀ (kwargs attrs : List (String × WVal)),
    (∀ kv ∈ kwargs, pyLookup kv.1 attrs = none) → update_config attrs kwargs = attrs := by
  intro kwargs
  induction kwargs with
  | nil => intro attrs _; rfl
  | cons kv rest ih =>
    intro attrs h
    have h₀ : pyLookup kv.1 attrs = none := h kv (List.mem_cons_self kv rest)
    have hh : ¬ hasattr attrs kv.1 = true := by
      rw [hasattr, h₀]
      simp
    show update_config (if hasattr attrs kv.1 then setattr attrs kv.1 kv.2 else attrs) rest = _
    rw [if_neg hh]
    exact ih attrs (fun p hp => h p (List.mem_cons_of_mem kv hp))

/-- C10: `update_config` never raises: a keyword whose name is not an attribute of
the held config is silently ignored (the attribute dictionary keeps exactly its
keys, and a call made only of unknown keywords changes nothing); a keyword naming
an existing field is assigned; every field not named keeps its previous value. -/
theorem update_config_policy (c : WhisperConfig) (kwargs : List (String × WVal))
    (hnd : (kwargs.map Prod.fst).Nodup) :
    ((update_config (attrsOf c) kwargs).map Prod.fst = (attrsOf c).map Prod.fst) ∧
    ((∀ kv ∈ kwargs, pyLookup kv.1 (attrsOf c) = none) →
      update_config (attrsOf c) kwargs = attrsOf c) ∧
    (∀ k, pyLookup k (update_config (attrsOf c) kwargs) =
      match pyLookup k (attrsOf c), pyLookup k kwargs with
      | none, _ => none
      | some old, none => some old
      | some _, some v => some v) :=
  ⟨update_config_keys kwargs (attrsOf c),
   fun h => update_config_no_known kwargs (attrsOf c) h,
   fun k => update_config_lookup kwargs (attrsOf c) hnd k⟩

/-- C10 witness: one known and one unknown keyword at the default configuration. -/
theorem update_config_policy_witness :
    ((update_config (attrsOf DEFAULT_CONFIG)
        [("language", WVal.s "en"), ("zzz", WVal.s "x")]).map Prod.fst =
      (attrsOf DEFAULT_CONFIG).map Prod.fst) ∧
    (update_config (attrsOf DEFAULT_CONFIG) [("zzz", WVal.s "x")] = attrsOf DEFAULT_CONFIG) ∧
    (pyLookup "language" (update_config (attrsOf DEFAULT_CONFIG)
        [("language", WVal.s "en"), ("zzz", WVal.s "x")]) =
      match pyLookup "language" (attrsOf DEFAULT_CONFIG),
        pyLookup "language" [("language", WVal.s "en"), ("zzz", WVal.s "x")] with
      | none, _ => none
      | some old, none => some old
      | some _, some v => some v) :=
  ⟨(update_config_policy DEFAULT_CONFIG
      [("language", WVal.s "en"), ("zzz", WVal.s "x")] (by decide)).1,
   (update_config_policy DEFAULT_CONFIG [("zzz", WVal.s "x")] (by decide)).2.1 (by decide),
   (update_config_policy DEFAULT_CONFIG
      [("language", WVal.s "en"), ("zzz", WVal.s "x")] (by decide)).2.2 "language"⟩
